import Mathlib

/-!
Shallow embedding of `src/components/data_transformation.py` from the
machine-predictive-maintenance repository, together with theorems settling
the frozen claims about it.

Modelling conventions:
* A pandas/numpy scalar cell is `Cell`: missing (`NaN`), a number (modelled
  over the rationals), or a string.
* A pandas `DataFrame` is an ordered list of named columns; a 2-D numpy
  array is an ordered list of (unnamed) columns, i.e. its column view.
* Fallible library calls (column access, `LabelEncoder.transform` on an
  unseen label, imputation of an all-missing column, non-numeric data fed
  to a numeric transformer) are modelled with `Except String`.
* Real-valued arithmetic is modelled over the rationals; the square root
  used inside the standard-deviation computation of a scaler is a rational
  stand-in (`ratSqrt`).  No verified claim depends on scaled magnitudes,
  only on shapes, column routing, encodings and error behaviour.
* The third-party `SMOTETomek.fit_resample` is not part of this repository;
  the driver is parametrized over a seed-indexed resampling function, which
  is exactly the interface the source uses (`SMOTETomek(random_state=42)`
  followed by `fit_resample(X, y)`).
-/

namespace PredMaint

/-- A scalar cell of a pandas frame / numpy array: missing, numeric or string. -/
inductive Cell where
  | null : Cell
  | num : ℚ → Cell
  | str : String → Cell
deriving DecidableEq, Repr

/-- `True` on cells that a numeric dtype can hold (numbers and `NaN`). -/
def Cell.isNumericVal : Cell → Bool
  | .str _ => false
  | _ => true

/-- `True` exactly on numeric (non-missing) cells. -/
def Cell.isNum : Cell → Bool
  | .num _ => true
  | _ => false

/-- `True` exactly on string cells. -/
def Cell.isStr : Cell → Bool
  | .str _ => true
  | _ => false

/-- `True` exactly on missing cells. -/
def Cell.isNull : Cell → Bool
  | .null => true
  | _ => false

/-- Total order on cells mirroring the comparison numpy sorting uses on a
well-typed column: missing first, then numbers by value, then strings in
lexicographic order. -/
def Cell.le : Cell → Cell → Prop
  | .null, _ => True
  | .num _, .null => False
  | .num a, .num b => a ≤ b
  | .num _, .str _ => True
  | .str _, .null => False
  | .str _, .num _ => False
  | .str a, .str b => a ≤ b

instance : DecidableRel Cell.le := by
  intro a b
  cases a <;> cases b <;> simp only [Cell.le] <;> infer_instance

theorem Cell.leRefl (a : Cell) : Cell.le a a := by
  cases a <;> simp only [Cell.le] <;> trivial

theorem Cell.leTotal (a b : Cell) : Cell.le a b ∨ Cell.le b a := by
  cases a <;> cases b <;> simp only [Cell.le] <;>
    first
      | exact Or.inl trivial
      | exact Or.inr trivial
      | exact le_total _ _

theorem Cell.leTrans {a b c : Cell} (h₁ : Cell.le a b) (h₂ : Cell.le b c) :
    Cell.le a c := by
  cases a <;> cases b <;> cases c <;> simp only [Cell.le] at * <;>
    first
      | trivial
      | exact le_trans h₁ h₂

theorem Cell.leAntisymm {a b : Cell} (h₁ : Cell.le a b) (h₂ : Cell.le b a) :
    a = b := by
  cases a <;> cases b <;> simp only [Cell.le] at * <;>
    first
      | rfl
      | exact absurd h₁ (by trivial)
      | exact absurd h₂ (by trivial)
      | exact congrArg _ (le_antisymm h₁ h₂)

/-- Insert a value into a sorted duplicate-free list, keeping it sorted and
duplicate-free. -/
def insertCell (v : Cell) : List Cell → List Cell
  | [] => [v]
  | h :: t =>
    if v = h then h :: t
    else if Cell.le v h then v :: h :: t
    else h :: insertCell v t

/-- The sorted list of distinct values of a list, mirroring `numpy.unique`
(which is what `sklearn.preprocessing.LabelEncoder.fit` stores in
`classes_`). -/
def sortedUnique (xs : List Cell) : List Cell :=
  xs.foldr insertCell []

theorem mem_insertCell {v w : Cell} {l : List Cell} :
    w ∈ insertCell v l ↔ w = v ∨ w ∈ l := by
  induction l with
  | nil => simp [insertCell]
  | cons h t ih =>
    by_cases hv : v = h
    · rw [insertCell, if_pos hv]
      subst hv
      simp only [List.mem_cons]
      tauto
    · by_cases hle : Cell.le v h
      · rw [insertCell, if_neg hv, if_pos hle]
        simp only [List.mem_cons]
      · rw [insertCell, if_neg hv, if_neg hle]
        simp only [List.mem_cons, ih]
        tauto

theorem mem_sortedUnique {w : Cell} {xs : List Cell} :
    w ∈ sortedUnique xs ↔ w ∈ xs := by
  induction xs with
  | nil => simp [sortedUnique]
  | cons h t ih =>
    simp only [sortedUnique, List.foldr_cons, mem_insertCell, List.mem_cons]
    rw [show t.foldr insertCell [] = sortedUnique t from rfl] at *
    tauto

theorem pairwise_insertCell {v : Cell} {l : List Cell}
    (h : l.Pairwise Cell.le) : (insertCell v l).Pairwise Cell.le := by
  induction l with
  | nil => simp [insertCell]
  | cons a t ih =>
    rcases List.pairwise_cons.mp h with ⟨ha, ht⟩
    by_cases hv : v = a
    · rw [insertCell, if_pos hv]
      exact h
    · by_cases hle : Cell.le v a
      · rw [insertCell, if_neg hv, if_pos hle]
        refine List.pairwise_cons.mpr ⟨?_, h⟩
        intro w hw
        rcases List.mem_cons.mp hw with rfl | hw
        · exact hle
        · exact Cell.leTrans hle (ha w hw)
      · rw [insertCell, if_neg hv, if_neg hle]
        refine List.pairwise_cons.mpr ⟨?_, ih ht⟩
        intro w hw
        rcases mem_insertCell.mp hw with rfl | hw
        · rcases Cell.leTotal w a with h' | h'
          · exact absurd h' hle
          · exact h'
        · exact ha w hw

theorem nodup_insertCell {v : Cell} {l : List Cell}
    (hs : l.Pairwise Cell.le) (h : l.Nodup) : (insertCell v l).Nodup := by
  induction l with
  | nil => simp [insertCell]
  | cons a t ih =>
    rcases List.pairwise_cons.mp hs with ⟨ha, ht⟩
    rcases List.nodup_cons.mp h with ⟨hna, hnt⟩
    by_cases hv : v = a
    · rw [insertCell, if_pos hv]
      exact h
    · by_cases hle : Cell.le v a
      · rw [insertCell, if_neg hv, if_pos hle]
        refine List.nodup_cons.mpr ⟨?_, h⟩
        intro hw
        rcases List.mem_cons.mp hw with rfl | hw
        · exact hv rfl
        · exact hv (Cell.leAntisymm hle (ha v hw))
      · rw [insertCell, if_neg hv, if_neg hle]
        refine List.nodup_cons.mpr ⟨?_, ih ht hnt⟩
        intro hw
        rcases mem_insertCell.mp hw with rfl | hw
        · exact hle (Cell.leRefl a)
        · exact hna hw

theorem pairwise_sortedUnique (xs : List Cell) :
    (sortedUnique xs).Pairwise Cell.le := by
  induction xs with
  | nil => simp [sortedUnique]
  | cons h t ih => exact pairwise_insertCell ih

theorem nodup_sortedUnique (xs : List Cell) : (sortedUnique xs).Nodup := by
  induction xs with
  | nil => simp [sortedUnique]
  | cons h t ih => exact nodup_insertCell (pairwise_sortedUnique t) ih

/-- State of one `sklearn.preprocessing.LabelEncoder`: the sorted distinct
values observed at fit time (its `classes_` attribute). -/
structure LabelEncoder where
  classes : List Cell
deriving DecidableEq, Repr

/-- `LabelEncoder.fit`: store the sorted distinct observed values. -/
def LabelEncoder.fit (xs : List Cell) : LabelEncoder :=
  ⟨sortedUnique xs⟩

/-- `LabelEncoder.transform` on one value: its index among the classes, or a
`ValueError` when the value was not seen at fit time. -/
def LabelEncoder.code (e : LabelEncoder) (v : Cell) : Except String ℤ :=
  if v ∈ e.classes then .ok (List.indexOf v e.classes)
  else .error "y contains previously unseen labels"

/-- Map a fallible per-element function over a list, propagating the first
failure — the behaviour of a straight-line Python loop whose body may raise. -/
def exMap {α β : Type} (f : α → Except String β) : List α → Except String (List β)
  | [] => .ok []
  | a :: t =>
    match f a with
    | .error e => .error e
    | .ok b =>
      match exMap f t with
      | .error e => .error e
      | .ok bs => .ok (b :: bs)

/-- `LabelEncoder.transform` on a whole column. -/
def LabelEncoder.transformAll (e : LabelEncoder) (xs : List Cell) :
    Except String (List ℤ) :=
  exMap e.code xs

theorem exMap_ok_length {α β : Type} {f : α → Except String β} {l : List α}
    {l' : List β} (h : exMap f l = .ok l') : l'.length = l.length := by
  induction l generalizing l' with
  | nil =>
    simp only [exMap] at h
    cases h
    rfl
  | cons a t ih =>
    simp only [exMap] at h
    cases hfa : f a with
    | error e => rw [hfa] at h; cases h
    | ok b =>
      rw [hfa] at h
      cases hft : exMap f t with
      | error e => rw [hft] at h; cases h
      | ok bs =>
        rw [hft] at h
        cases h
        simp [ih hft]

theorem exMap_ok_mem {α β : Type} {f : α → Except String β} {l : List α}
    {l' : List β} (h : exMap f l = .ok l') :
    ∀ a ∈ l, ∃ b ∈ l', f a = .ok b := by
  induction l generalizing l' with
  | nil => intro a ha; cases ha
  | cons a t ih =>
    simp only [exMap] at h
    cases hfa : f a with
    | error e => rw [hfa] at h; cases h
    | ok b =>
      rw [hfa] at h
      cases hft : exMap f t with
      | error e => rw [hft] at h; cases h
      | ok bs =>
        rw [hft] at h
        cases h
        intro x hx
        rcases List.mem_cons.mp hx with rfl | hx
        · exact ⟨b, List.mem_cons_self _ _, hfa⟩
        · rcases ih hft x hx with ⟨y, hy, hfy⟩
          exact ⟨y, List.mem_cons_of_mem _ hy, hfy⟩

theorem exMap_ok_get {α β : Type} {f : α → Except String β} {l : List α}
    {l' : List β} (h : exMap f l = .ok l') :
    ∀ i (hi : i < l.length) (hi' : i < l'.length),
      f (l.get ⟨i, hi⟩) = .ok (l'.get ⟨i, hi'⟩) := by
  induction l generalizing l' with
  | nil => intro i hi; cases hi
  | cons a t ih =>
    simp only [exMap] at h
    cases hfa : f a with
    | error e => rw [hfa] at h; cases h
    | ok b =>
      rw [hfa] at h
      cases hft : exMap f t with
      | error e => rw [hft] at h; cases h
      | ok bs =>
        rw [hft] at h
        cases h
        intro i hi hi'
        cases i with
        | zero => exact hfa
        | succ j =>
          exact ih hft j (Nat.lt_of_succ_lt_succ hi) (Nat.lt_of_succ_lt_succ hi')

theorem exMap_eq_map {α β : Type} {f : α → Except String β} {l : List α}
    (g : α → β) (h : ∀ a ∈ l, f a = .ok (g a)) :
    exMap f l = .ok (l.map g) := by
  induction l with
  | nil => simp [exMap]
  | cons a t ih =>
    have ha := h a (List.mem_cons_self _ _)
    have ht := ih (fun x hx => h x (List.mem_cons_of_mem _ hx))
    simp [exMap, ha, ht]

theorem exMap_ok_of_forall {α β : Type} {f : α → Except String β} {l : List α}
    (h : ∀ a ∈ l, ∃ b, f a = .ok b) : ∃ l', exMap f l = .ok l' := by
  induction l with
  | nil => exact ⟨[], rfl⟩
  | cons a t ih =>
    rcases h a (List.mem_cons_self _ _) with ⟨b, hb⟩
    rcases ih (fun x hx => h x (List.mem_cons_of_mem _ hx)) with ⟨bs, hbs⟩
    exact ⟨b :: bs, by simp [exMap, hb, hbs]⟩

theorem exMap_congr {α β : Type} {f g : α → Except String β} {l : List α}
    (h : ∀ a ∈ l, f a = g a) : exMap f l = exMap g l := by
  induction l with
  | nil => rfl
  | cons a t ih =>
    have ha := h a (List.mem_cons_self _ _)
    have ht := ih (fun x hx => h x (List.mem_cons_of_mem _ hx))
    simp [exMap, ha, ht]

/-- Keys of the `self.encoders` dict of the custom transformer: a column name
when fitting a pandas frame, a column index when fitting a numpy array. -/
inductive ColKey where
  | name : String → ColKey
  | idx : ℕ → ColKey
deriving DecidableEq, Repr

/-- Dict entry assignment `self.encoders[k] = e`: replace the value when the
key is present, otherwise append the binding. -/
def upsert (k : ColKey) (e : LabelEncoder) :
    List (ColKey × LabelEncoder) → List (ColKey × LabelEncoder)
  | [] => [(k, e)]
  | (k', e') :: t => if k = k' then (k, e) :: t else (k', e') :: upsert k e t

/-- Dict lookup in `self.encoders`. -/
def lookupEnc (k : ColKey) : List (ColKey × LabelEncoder) → Option LabelEncoder
  | [] => none
  | (k', e) :: t => if k = k' then some e else lookupEnc k t

theorem lookupEnc_upsert (k k' : ColKey) (e : LabelEncoder)
    (l : List (ColKey × LabelEncoder)) :
    lookupEnc k (upsert k' e l) =
      if k = k' then some e else lookupEnc k l := by
  induction l with
  | nil => simp [upsert, lookupEnc]
  | cons p t ih =>
    obtain ⟨k₀, e₀⟩ := p
    by_cases h0 : k' = k₀
    · rw [upsert, if_pos h0]
      by_cases hk : k = k'
      · simp [lookupEnc, hk]
      · subst h0
        simp [lookupEnc, hk]
    · rw [upsert, if_neg h0]
      by_cases hk : k = k₀
      · subst hk
        have hkk : k ≠ k' := fun h => h0 h.symm
        simp [lookupEnc, hkk]
      · simp [lookupEnc, hk, ih]

/-- A table as the custom transformer receives it: a named pandas frame
(ordered list of named columns) or a raw 2-D numpy array (stored by columns,
i.e. the slices `X[:, i]`). -/
inductive Table where
  | df : List (String × List Cell) → Table
  | arr : List (List Cell) → Table
deriving DecidableEq, Repr

/-- The pandas dtype test of `fit`: column `X[col]` has a numeric dtype
exactly when no cell is a string (otherwise its dtype is `object`). -/
def numericCol (vs : List Cell) : Bool := vs.all Cell.isNumericVal

/-- The numpy dtype of a 2-D array is numeric iff every cell is numeric; the
dtype of every column slice `X[:, i]` equals the dtype of the whole array. -/
def arrNumeric (cols : List (List Cell)) : Bool :=
  cols.all fun c => c.all Cell.isNumericVal

/-- State of the custom `LabelEncodingTransformer`: one fitted
`LabelEncoder` per encoded column. -/
structure LabelEncodingTransformer where
  encoders : List (ColKey × LabelEncoder)
deriving DecidableEq, Repr

/-- Freshly constructed transformer: `self.encoders = {}`. -/
def LabelEncodingTransformer.init : LabelEncodingTransformer := ⟨[]⟩

/-- The `fit` loop over the named columns of a pandas frame: learn an encoder
for each column whose dtype is `object`/`category`, skip numeric columns. -/
def fitDFCols (enc : List (ColKey × LabelEncoder)) :
    List (String × List Cell) → List (ColKey × LabelEncoder)
  | [] => enc
  | (c, vs) :: t =>
    fitDFCols
      (if numericCol vs then enc
       else upsert (.name c) (LabelEncoder.fit vs) enc) t

/-- The `fit` loop over the indexed column slices of a non-numeric numpy
array: every column slice shares the array dtype, so every column gets an
encoder. -/
def fitArrCols (enc : List (ColKey × LabelEncoder)) :
    List (ℕ × List Cell) → List (ColKey × LabelEncoder)
  | [] => enc
  | (i, vs) :: t => fitArrCols (upsert (.idx i) (LabelEncoder.fit vs) enc) t

/-- `LabelEncodingTransformer.fit`. -/
def LabelEncodingTransformer.fit (t : LabelEncodingTransformer) (X : Table) :
    LabelEncodingTransformer :=
  match X with
  | .df d => ⟨fitDFCols t.encoders d⟩
  | .arr a => if arrNumeric a then t else ⟨fitArrCols t.encoders a.enum⟩

/-- `.num` cell holding an integer label code. -/
def intCell (z : ℤ) : Cell := .num (z : ℚ)

/-- The `transform` loop body for one named column: replace the values by
their codes when the column has a fitted encoder, else pass it through. -/
def transformDFCol (t : LabelEncodingTransformer) (c : String)
    (vs : List Cell) : Except String (List Cell) :=
  match lookupEnc (.name c) t.encoders with
  | some e => (e.transformAll vs).map fun codes => codes.map intCell
  | none => .ok vs

/-- The `transform` loop body for one indexed array column. -/
def transformArrCol (t : LabelEncodingTransformer) (i : ℕ)
    (vs : List Cell) : Except String (List Cell) :=
  match lookupEnc (.idx i) t.encoders with
  | some e => (e.transformAll vs).map fun codes => codes.map intCell
  | none => .ok vs

/-- `LabelEncodingTransformer.transform`: work on a copy of the input,
re-encoding exactly the columns that have a stored encoder. -/
def LabelEncodingTransformer.transform (t : LabelEncodingTransformer)
    (X : Table) : Except String Table :=
  match X with
  | .df d =>
    (exMap (fun p => (transformDFCol t p.1 p.2).map fun vs => (p.1, vs)) d).map .df
  | .arr a =>
    (exMap (fun p => transformArrCol t p.1 p.2) a.enum).map .arr

theorem lookupEnc_isSome_upsert {k : ColKey} {l : List (ColKey × LabelEncoder)}
    (k' : ColKey) (e : LabelEncoder) (h : (lookupEnc k l).isSome) :
    (lookupEnc k (upsert k' e l)).isSome := by
  rw [lookupEnc_upsert]
  by_cases hk : k = k'
  · simp [hk]
  · simpa [hk] using h

theorem lookupEnc_isSome_fitDFCols {k : ColKey}
    {enc : List (ColKey × LabelEncoder)} (d : List (String × List Cell))
    (h : (lookupEnc k enc).isSome) :
    (lookupEnc k (fitDFCols enc d)).isSome := by
  induction d generalizing enc with
  | nil => exact h
  | cons p t ih =>
    obtain ⟨c, vs⟩ := p
    rw [fitDFCols]
    by_cases hn : numericCol vs
    · rw [if_pos hn]
      exact ih h
    · rw [if_neg hn]
      exact ih (lookupEnc_isSome_upsert _ _ h)

theorem lookupEnc_isSome_fitArrCols {k : ColKey}
    {enc : List (ColKey × LabelEncoder)} (ps : List (ℕ × List Cell))
    (h : (lookupEnc k enc).isSome) :
    (lookupEnc k (fitArrCols enc ps)).isSome := by
  induction ps generalizing enc with
  | nil => exact h
  | cons p t ih =>
    obtain ⟨i, vs⟩ := p
    rw [fitArrCols]
    exact ih (lookupEnc_isSome_upsert _ _ h)

theorem fitDFCols_lookup_of_miss {k : ColKey}
    {enc : List (ColKey × LabelEncoder)} {d : List (String × List Cell)}
    (h : ∀ p ∈ d, numericCol p.2 = false → ColKey.name p.1 ≠ k) :
    lookupEnc k (fitDFCols enc d) = lookupEnc k enc := by
  induction d generalizing enc with
  | nil => rfl
  | cons p t ih =>
    obtain ⟨c, vs⟩ := p
    rw [fitDFCols]
    by_cases hn : numericCol vs
    · rw [if_pos hn]
      exact ih fun q hq => h q (List.mem_cons_of_mem _ hq)
    · rw [if_neg hn]
      rw [ih fun q hq => h q (List.mem_cons_of_mem _ hq)]
      rw [lookupEnc_upsert]
      have hne : k ≠ ColKey.name c := by
        intro hkc
        exact h (c, vs) (List.mem_cons_self _ _) (by simpa using hn) hkc.symm
      rw [if_neg hne]

theorem fitDFCols_lookup_hit {c : String} {vs : List Cell}
    {enc : List (ColKey × LabelEncoder)} {d : List (String × List Cell)}
    (hnd : (d.map Prod.fst).Nodup) (hmem : (c, vs) ∈ d)
    (hn : numericCol vs = false) :
    lookupEnc (.name c) (fitDFCols enc d) = some (LabelEncoder.fit vs) := by
  induction d generalizing enc with
  | nil => cases hmem
  | cons p t ih =>
    obtain ⟨c₀, vs₀⟩ := p
    simp only [List.map_cons, List.nodup_cons] at hnd
    rcases List.mem_cons.mp hmem with heq | hmem'
    · cases heq
      rw [fitDFCols, if_neg (by simp [hn])]
      rw [fitDFCols_lookup_of_miss]
      · rw [lookupEnc_upsert, if_pos rfl]
      · intro q hq _ hkq
        have : q.1 = c := by
          injection hkq
        exact hnd.1 (this ▸ List.mem_map_of_mem Prod.fst hq)
    · rw [fitDFCols]
      by_cases hn0 : numericCol vs₀
      · rw [if_pos hn0]
        exact ih hnd.2 hmem'
      · rw [if_neg hn0]
        exact ih hnd.2 hmem'

theorem fitDFCols_lookup_skip {c : String} {vs : List Cell}
    {enc : List (ColKey × LabelEncoder)} {d : List (String × List Cell)}
    (hnd : (d.map Prod.fst).Nodup) (hmem : (c, vs) ∈ d)
    (hn : numericCol vs = true) :
    lookupEnc (.name c) (fitDFCols enc d) = lookupEnc (.name c) enc := by
  induction d generalizing enc with
  | nil => cases hmem
  | cons p t ih =>
    obtain ⟨c₀, vs₀⟩ := p
    simp only [List.map_cons, List.nodup_cons] at hnd
    rcases List.mem_cons.mp hmem with heq | hmem'
    · cases heq
      rw [fitDFCols, if_pos hn]
      apply fitDFCols_lookup_of_miss
      intro q hq _ hkq
      have : q.1 = c := by
        injection hkq
      exact hnd.1 (this ▸ List.mem_map_of_mem Prod.fst hq)
    · rw [fitDFCols]
      have hc0 : c₀ ≠ c := by
        intro h
        exact hnd.1 (h ▸ List.mem_map_of_mem Prod.fst hmem')
      by_cases hn0 : numericCol vs₀
      · rw [if_pos hn0]
        exact ih hnd.2 hmem'
      · rw [if_neg hn0]
        rw [ih hnd.2 hmem']
        rw [lookupEnc_upsert, if_neg (by simp [hc0.symm])]

theorem fitDFCols_lookup_inv {k : ColKey} {e : LabelEncoder}
    {enc : List (ColKey × LabelEncoder)} {d : List (String × List Cell)}
    (h : lookupEnc k (fitDFCols enc d) = some e) :
    lookupEnc k enc = some e ∨
      ∃ p ∈ d, k = ColKey.name p.1 ∧ numericCol p.2 = false ∧
        e = LabelEncoder.fit p.2 := by
  induction d generalizing enc with
  | nil => exact Or.inl h
  | cons p t ih =>
    obtain ⟨c, vs⟩ := p
    rw [fitDFCols] at h
    by_cases hn : numericCol vs
    · rw [if_pos hn] at h
      rcases ih h with h' | ⟨q, hq, hkq⟩
      · exact Or.inl h'
      · exact Or.inr ⟨q, List.mem_cons_of_mem _ hq, hkq⟩
    · rw [if_neg hn] at h
      rcases ih h with h' | ⟨q, hq, hkq⟩
      · rw [lookupEnc_upsert] at h'
        by_cases hk : k = ColKey.name c
        · rw [if_pos hk] at h'
          cases h'
          exact Or.inr ⟨(c, vs), List.mem_cons_self _ _, hk,
            by simpa using hn, rfl⟩
        · rw [if_neg hk] at h'
          exact Or.inl h'
      · exact Or.inr ⟨q, List.mem_cons_of_mem _ hq, hkq⟩

theorem fitArrCols_lookup_of_miss {k : ColKey}
    {enc : List (ColKey × LabelEncoder)} {ps : List (ℕ × List Cell)}
    (h : ∀ p ∈ ps, ColKey.idx p.1 ≠ k) :
    lookupEnc k (fitArrCols enc ps) = lookupEnc k enc := by
  induction ps generalizing enc with
  | nil => rfl
  | cons p t ih =>
    obtain ⟨i, vs⟩ := p
    rw [fitArrCols]
    rw [ih fun q hq => h q (List.mem_cons_of_mem _ hq)]
    rw [lookupEnc_upsert]
    have hne : k ≠ ColKey.idx i := fun hk =>
      h (i, vs) (List.mem_cons_self _ _) hk.symm
    rw [if_neg hne]

theorem fitArrCols_lookup_hit {i : ℕ} {vs : List Cell}
    {enc : List (ColKey × LabelEncoder)} {ps : List (ℕ × List Cell)}
    (hnd : (ps.map Prod.fst).Nodup) (hmem : (i, vs) ∈ ps) :
    lookupEnc (.idx i) (fitArrCols enc ps) = some (LabelEncoder.fit vs) := by
  induction ps generalizing enc with
  | nil => cases hmem
  | cons p t ih =>
    obtain ⟨i₀, vs₀⟩ := p
    simp only [List.map_cons, List.nodup_cons] at hnd
    rcases List.mem_cons.mp hmem with heq | hmem'
    · cases heq
      rw [fitArrCols]
      rw [fitArrCols_lookup_of_miss]
      · rw [lookupEnc_upsert, if_pos rfl]
      · intro q hq hkq
        have : q.1 = i := by
          injection hkq
        exact hnd.1 (this ▸ List.mem_map_of_mem Prod.fst hq)
    · rw [fitArrCols]
      exact ih hnd.2 hmem'

theorem fitArrCols_lookup_inv {k : ColKey} {e : LabelEncoder}
    {enc : List (ColKey × LabelEncoder)} {ps : List (ℕ × List Cell)}
    (h : lookupEnc k (fitArrCols enc ps) = some e) :
    lookupEnc k enc = some e ∨
      ∃ p ∈ ps, k = ColKey.idx p.1 ∧ e = LabelEncoder.fit p.2 := by
  induction ps generalizing enc with
  | nil => exact Or.inl h
  | cons p t ih =>
    obtain ⟨i, vs⟩ := p
    rw [fitArrCols] at h
    rcases ih h with h' | ⟨q, hq, hkq⟩
    · rw [lookupEnc_upsert] at h'
      by_cases hk : k = ColKey.idx i
      · rw [if_pos hk] at h'
        cases h'
        exact Or.inr ⟨(i, vs), List.mem_cons_self _ _, hk, rfl⟩
      · rw [if_neg hk] at h'
        exact Or.inl h'
    · exact Or.inr ⟨q, List.mem_cons_of_mem _ hq, hkq⟩

theorem except_map_ok_inv {α β : Type} {x : Except String α} {g : α → β}
    {y : β} (h : x.map g = .ok y) : ∃ x', x = .ok x' ∧ y = g x' := by
  cases x with
  | error e => simp [Except.map] at h
  | ok a =>
    refine ⟨a, rfl, ?_⟩
    simpa [Except.map] using h.symm

theorem LabelEncoder.code_ok_of_mem {e : LabelEncoder} {v : Cell}
    (h : v ∈ e.classes) : e.code v = .ok (List.indexOf v e.classes) := by
  simp [LabelEncoder.code, h]

theorem LabelEncoder.code_err_of_notMem {e : LabelEncoder} {v : Cell}
    (h : v ∉ e.classes) :
    e.code v = .error "y contains previously unseen labels" := by
  simp [LabelEncoder.code, h]

theorem transformAll_ok_of_sub {e : LabelEncoder} {xs : List Cell}
    (h : ∀ v ∈ xs, v ∈ e.classes) :
    e.transformAll xs = .ok (xs.map fun v => (List.indexOf v e.classes : ℤ)) :=
  exMap_eq_map _ fun v hv => LabelEncoder.code_ok_of_mem (h v hv)

theorem transformAll_not_ok_of_unseen {e : LabelEncoder} {xs : List Cell}
    {v : Cell} (hv : v ∈ xs) (h : v ∉ e.classes) :
    ∀ cs, e.transformAll xs ≠ .ok cs := by
  intro cs hok
  rcases exMap_ok_mem hok v hv with ⟨b, _, hb⟩
  rw [LabelEncoder.code_err_of_notMem h] at hb
  cases hb

theorem transformAll_ok_length {e : LabelEncoder} {xs : List Cell}
    {cs : List ℤ} (h : e.transformAll xs = .ok cs) : cs.length = xs.length :=
  exMap_ok_length h

theorem transformAll_fit_self {xs : List Cell} :
    (LabelEncoder.fit xs).transformAll xs =
      .ok (xs.map fun v => (List.indexOf v (sortedUnique xs) : ℤ)) :=
  transformAll_ok_of_sub fun v hv => mem_sortedUnique.mpr hv

theorem transformDFCol_ok_length {t : LabelEncodingTransformer} {c : String}
    {vs vs' : List Cell} (h : transformDFCol t c vs = .ok vs') :
    vs'.length = vs.length := by
  unfold transformDFCol at h
  cases hl : lookupEnc (.name c) t.encoders with
  | none =>
    rw [hl] at h
    cases h
    rfl
  | some e =>
    rw [hl] at h
    rcases except_map_ok_inv h with ⟨codes, hc, rfl⟩
    simp [transformAll_ok_length hc]

theorem transformArrCol_ok_length {t : LabelEncodingTransformer} {i : ℕ}
    {vs vs' : List Cell} (h : transformArrCol t i vs = .ok vs') :
    vs'.length = vs.length := by
  unfold transformArrCol at h
  cases hl : lookupEnc (.idx i) t.encoders with
  | none =>
    rw [hl] at h
    cases h
    rfl
  | some e =>
    rw [hl] at h
    rcases except_map_ok_inv h with ⟨codes, hc, rfl⟩
    simp [transformAll_ok_length hc]

/-- Column-name/column-length skeleton of a frame. -/
def dfShape (d : List (String × List Cell)) : List (String × ℕ) :=
  d.map fun p => (p.1, p.2.length)

/-- Column-length skeleton of an array. -/
def arrShape (a : List (List Cell)) : List ℕ :=
  a.map List.length

theorem transform_df_shape {t : LabelEncodingTransformer}
    {d : List (String × List Cell)} {Y : Table}
    (h : t.transform (.df d) = .ok Y) :
    ∃ d', Y = .df d' ∧ dfShape d' = dfShape d := by
  unfold LabelEncodingTransformer.transform at h
  rcases except_map_ok_inv h with ⟨d', hd', rfl⟩
  refine ⟨d', rfl, ?_⟩
  have hlen := exMap_ok_length hd'
  apply List.ext_get (by simp [dfShape, hlen])
  intro n h₁ h₂
  simp only [dfShape, List.length_map] at h₁ h₂
  have hget := exMap_ok_get hd' n h₂ h₁
  rcases except_map_ok_inv hget with ⟨vs', hvs', heq⟩
  simp only [dfShape, List.get_map]
  rw [heq]
  simp [transformDFCol_ok_length hvs']

theorem transform_arr_shape {t : LabelEncodingTransformer}
    {a : List (List Cell)} {Y : Table}
    (h : t.transform (.arr a) = .ok Y) :
    ∃ a', Y = .arr a' ∧ arrShape a' = arrShape a := by
  unfold LabelEncodingTransformer.transform at h
  rcases except_map_ok_inv h with ⟨a', ha', rfl⟩
  refine ⟨a', rfl, ?_⟩
  have hlen := exMap_ok_length ha'
  rw [List.enum_length] at hlen
  apply List.ext_get (by simp [arrShape, hlen])
  intro n h₁ h₂
  simp only [arrShape, List.length_map] at h₁ h₂
  have hn : n < a.enum.length := by simpa [List.enum_length] using h₂
  have hget := exMap_ok_get ha' n hn h₁
  have henum : a.enum.get ⟨n, hn⟩ = (n, a.get ⟨n, h₂⟩) := by
    simp [List.get_eq_getElem, List.getElem_enum]
  rw [henum] at hget
  simp only [arrShape, List.get_map]
  have hlen2 := transformArrCol_ok_length hget
  simpa [List.get_eq_getElem] using hlen2

/-- No cell of the table is missing. -/
def noNullsTable : Table → Prop
  | .df d => ∀ p ∈ d, ∀ v ∈ p.2, v ≠ Cell.null
  | .arr a => ∀ c ∈ a, ∀ v ∈ c, v ≠ Cell.null

/-- Well-formedness of a table: a pandas frame has pairwise distinct column
names (an array needs nothing). -/
def tableWF : Table → Prop
  | .df d => (d.map Prod.fst).Nodup
  | .arr _ => True

instance : DecidablePred noNullsTable := by
  intro X
  cases X <;> simp only [noNullsTable] <;> infer_instance

instance : DecidablePred tableWF := by
  intro X
  cases X <;> simp only [tableWF] <;> infer_instance

theorem transform_fit_self_ok {X : Table} (hwf : tableWF X) :
    ∃ Y, (LabelEncodingTransformer.init.fit X).transform X = .ok Y := by
  cases X with
  | df d =>
    have hforall : ∀ p ∈ d, ∃ b,
        (transformDFCol (LabelEncodingTransformer.init.fit (.df d)) p.1 p.2).map
          (fun vs => (p.1, vs)) = Except.ok b := by
      intro ⟨c, vs⟩ hmem
      by_cases hn : numericCol vs
      · have hl : lookupEnc (.name c)
            (LabelEncodingTransformer.init.fit (.df d)).encoders = none := by
          simp only [LabelEncodingTransformer.fit, LabelEncodingTransformer.init]
          rw [fitDFCols_lookup_skip hwf hmem hn]
          rfl
        exact ⟨(c, vs), by simp [transformDFCol, hl, Except.map]⟩
      · have hl : lookupEnc (.name c)
            (LabelEncodingTransformer.init.fit (.df d)).encoders =
              some (LabelEncoder.fit vs) := by
          simp only [LabelEncodingTransformer.fit, LabelEncodingTransformer.init]
          exact fitDFCols_lookup_hit hwf hmem (by simpa using hn)
        refine ⟨(c, (vs.map fun v =>
          (List.indexOf v (sortedUnique vs) : ℤ)).map intCell), ?_⟩
        simp [transformDFCol, hl, transformAll_fit_self, Except.map]
    rcases exMap_ok_of_forall hforall with ⟨d', hd'⟩
    refine ⟨.df d', ?_⟩
    have hdef : (LabelEncodingTransformer.init.fit (.df d)).transform (.df d) =
        Except.map Table.df
          (exMap (fun p => Except.map (fun vs => (p.1, vs))
            (transformDFCol (LabelEncodingTransformer.init.fit (.df d)) p.1 p.2)) d) :=
      rfl
    rw [hdef, hd']
    rfl
  | arr a =>
    by_cases hnum : arrNumeric a
    · have hforall : ∀ p ∈ a.enum, ∃ b,
          transformArrCol (LabelEncodingTransformer.init.fit (.arr a)) p.1 p.2 =
            Except.ok b := by
        intro ⟨i, vs⟩ _
        have hl : lookupEnc (.idx i)
            (LabelEncodingTransformer.init.fit (.arr a)).encoders = none := by
          simp [LabelEncodingTransformer.fit, hnum, LabelEncodingTransformer.init,
            lookupEnc]
        exact ⟨vs, by simp [transformArrCol, hl, Except.map]⟩
      rcases exMap_ok_of_forall hforall with ⟨a', ha'⟩
      exact ⟨.arr a', by simp [LabelEncodingTransformer.transform, ha', Except.map]⟩
    · have hndx : (a.enum.map Prod.fst).Nodup := by
        rw [List.enum_map_fst]
        exact List.nodup_range _
      have hforall : ∀ p ∈ a.enum, ∃ b,
          transformArrCol (LabelEncodingTransformer.init.fit (.arr a)) p.1 p.2 =
            Except.ok b := by
        intro ⟨i, vs⟩ hmem
        have hl : lookupEnc (.idx i)
            (LabelEncodingTransformer.init.fit (.arr a)).encoders =
              some (LabelEncoder.fit vs) := by
          simp only [LabelEncodingTransformer.fit, if_neg hnum,
            LabelEncodingTransformer.init]
          exact fitArrCols_lookup_hit hndx hmem
        exact ⟨(vs.map fun v => (List.indexOf v (sortedUnique vs) : ℤ)).map intCell,
          by simp [transformArrCol, hl, transformAll_fit_self, Except.map]⟩
      rcases exMap_ok_of_forall hforall with ⟨a', ha'⟩
      exact ⟨.arr a', by simp [LabelEncodingTransformer.transform, ha', Except.map]⟩

theorem transform_df_not_ok {t : LabelEncodingTransformer}
    {d : List (String × List Cell)} {c : String} {vs : List Cell}
    {e : LabelEncoder} {v : Cell}
    (hmem : (c, vs) ∈ d) (hl : lookupEnc (.name c) t.encoders = some e)
    (hv : v ∈ vs) (hnc : v ∉ e.classes) :
    ∀ Y, t.transform (.df d) ≠ .ok Y := by
  intro Y h
  unfold LabelEncodingTransformer.transform at h
  rcases except_map_ok_inv h with ⟨d', hd', _⟩
  rcases exMap_ok_mem hd' (c, vs) hmem with ⟨b, _, hb⟩
  rcases except_map_ok_inv hb with ⟨vs', hvs', _⟩
  unfold transformDFCol at hvs'
  rw [hl] at hvs'
  rcases except_map_ok_inv hvs' with ⟨codes, hcodes, _⟩
  exact transformAll_not_ok_of_unseen hv hnc codes hcodes

theorem transform_arr_not_ok {t : LabelEncodingTransformer}
    {a : List (List Cell)} {i : ℕ} {vs : List Cell}
    {e : LabelEncoder} {v : Cell}
    (hmem : (i, vs) ∈ a.enum) (hl : lookupEnc (.idx i) t.encoders = some e)
    (hv : v ∈ vs) (hnc : v ∉ e.classes) :
    ∀ Y, t.transform (.arr a) ≠ .ok Y := by
  intro Y h
  unfold LabelEncodingTransformer.transform at h
  rcases except_map_ok_inv h with ⟨a', ha', _⟩
  rcases exMap_ok_mem ha' (i, vs) hmem with ⟨b, _, hb⟩
  unfold transformArrCol at hb
  rw [hl] at hb
  rcases except_map_ok_inv hb with ⟨codes, hcodes, _⟩
  exact transformAll_not_ok_of_unseen hv hnc codes hcodes

theorem transform_df_ok_spec {t : LabelEncodingTransformer}
    {d d' : List (String × List Cell)}
    (h : t.transform (.df d) = .ok (.df d')) :
    d'.length = d.length ∧
    ∀ n (hn : n < d.length) (hn' : n < d'.length),
      (d'.get ⟨n, hn'⟩).1 = (d.get ⟨n, hn⟩).1 ∧
      (lookupEnc (.name (d.get ⟨n, hn⟩).1) t.encoders = none →
        (d'.get ⟨n, hn'⟩).2 = (d.get ⟨n, hn⟩).2) ∧
      (∀ e, lookupEnc (.name (d.get ⟨n, hn⟩).1) t.encoders = some e →
        ∃ codes, e.transformAll (d.get ⟨n, hn⟩).2 = .ok codes ∧
          (d'.get ⟨n, hn'⟩).2 = codes.map intCell) := by
  unfold LabelEncodingTransformer.transform at h
  rcases except_map_ok_inv h with ⟨d'', hd'', heq⟩
  have hdd : d'' = d' := by injection heq.symm
  subst hdd
  refine ⟨exMap_ok_length hd'', ?_⟩
  intro n hn hn'
  have hget := exMap_ok_get hd'' n hn hn'
  rcases except_map_ok_inv hget with ⟨vs', hvs', heq'⟩
  unfold transformDFCol at hvs'
  refine ⟨by rw [heq'], ?_, ?_⟩
  · intro hnone
    rw [hnone] at hvs'
    cases hvs'
    rw [heq']
  · intro e he
    rw [he] at hvs'
    rcases except_map_ok_inv hvs' with ⟨codes, hcodes, hcs⟩
    exact ⟨codes, hcodes, by rw [heq', hcs]⟩

theorem transform_arr_ok_spec {t : LabelEncodingTransformer}
    {a a' : List (List Cell)}
    (h : t.transform (.arr a) = .ok (.arr a')) :
    a'.length = a.length ∧
    ∀ n (hn : n < a.length) (hn' : n < a'.length),
      (lookupEnc (.idx n) t.encoders = none →
        a'.get ⟨n, hn'⟩ = a.get ⟨n, hn⟩) ∧
      (∀ e, lookupEnc (.idx n) t.encoders = some e →
        ∃ codes, e.transformAll (a.get ⟨n, hn⟩) = .ok codes ∧
          a'.get ⟨n, hn'⟩ = codes.map intCell) := by
  unfold LabelEncodingTransformer.transform at h
  rcases except_map_ok_inv h with ⟨a'', ha'', heq⟩
  have haa : a'' = a' := by injection heq.symm
  subst haa
  have hlen := exMap_ok_length ha''
  rw [List.enum_length] at hlen
  refine ⟨hlen, ?_⟩
  intro n hn hn'
  have hne : n < a.enum.length := by simpa [List.enum_length] using hn
  have hget := exMap_ok_get ha'' n hne hn'
  have henum : a.enum.get ⟨n, hne⟩ = (n, a.get ⟨n, hn⟩) := by
    simp [List.get_eq_getElem, List.getElem_enum]
  rw [henum] at hget
  unfold transformArrCol at hget
  refine ⟨?_, ?_⟩
  · intro hnone
    rw [hnone] at hget
    injection hget with hg
    exact hg.symm
  · intro e he
    rw [he] at hget
    rcases except_map_ok_inv hget with ⟨codes, hcodes, hcs⟩
    exact ⟨codes, hcodes, hcs⟩

/-- Insert into an ascending list of rationals (helper for the median). -/
def insertQ (x : ℚ) : List ℚ → List ℚ
  | [] => [x]
  | h :: t => if x ≤ h then x :: h :: t else h :: insertQ x t

/-- Ascending sort of a list of rationals. -/
def sortQ (xs : List ℚ) : List ℚ := xs.foldr insertQ []

/-- numpy median: middle of the sorted values, mean of the two middle values
for even length. -/
def median (xs : List ℚ) : ℚ :=
  let s := sortQ xs
  let n := s.length
  if n = 0 then 0
  else if n % 2 = 1 then s.getD (n / 2) 0
  else (s.getD (n / 2 - 1) 0 + s.getD (n / 2) 0) / 2

/-- Arithmetic mean. -/
def mean (xs : List ℚ) : ℚ := xs.sum / xs.length

/-- Population variance (ddof = 0, as StandardScaler uses). -/
def variance (xs : List ℚ) : ℚ :=
  ((xs.map fun x => (x - mean xs) ^ 2).sum) / xs.length

/-- Rational stand-in for the real square root inside the standard
deviation; no verified claim depends on scaled magnitudes. -/
def ratSqrt (q : ℚ) : ℚ := (Int.sqrt q.num : ℚ) / (Nat.sqrt q.den : ℚ)

/-- Frozen per-column state of the numeric sub-pipeline. -/
structure NumColStats where
  medianFit : ℚ
  meanFit : ℚ
  scaleFit : ℚ
deriving DecidableEq, Repr

/-- Numeric reading of a cell with a fill value for missing entries. -/
def cellQ (v : Cell) (fill : ℚ) : ℚ :=
  match v with
  | .num q => q
  | _ => fill

/-- Observed (non-missing) numeric values of a column. -/
def observedQ (vs : List Cell) : List ℚ :=
  vs.filterMap fun v =>
    match v with
    | .num q => some q
    | _ => none

/-- Fit-and-apply of the numeric sub-pipeline on one training column:
median imputation, then standardization with the fitted mean and deviation
(StandardScaler maps a zero deviation to a unit divisor). -/
def fitTransNumCol (vs : List Cell) : Except String (NumColStats × List ℚ) :=
  if vs.all Cell.isNumericVal then
    match observedQ vs with
    | [] => .error "cannot impute an all-missing numeric column"
    | q :: qs =>
      let med := median (q :: qs)
      let imputed := vs.map (cellQ · med)
      let mu := mean imputed
      let sigma := ratSqrt (variance imputed)
      let sc := if sigma = 0 then 1 else sigma
      .ok (⟨med, mu, sc⟩, imputed.map fun x => (x - mu) / sc)
  else .error "could not convert string to float"

/-- Frozen application of the numeric sub-pipeline to one test column. -/
def applyNumCol (st : NumColStats) (vs : List Cell) : Except String (List ℚ) :=
  if vs.all Cell.isNumericVal then
    .ok (vs.map fun v => (cellQ v st.medianFit - st.meanFit) / st.scaleFit)
  else .error "could not convert string to float"

/-- Most frequent non-missing value of a column, ties resolved towards the
smallest value (SimpleImputer strategy most_frequent). -/
def mostFrequent (vs : List Cell) : Except String Cell :=
  match sortedUnique (vs.filter fun v => !v.isNull) with
  | [] => .error "cannot impute an all-missing column"
  | c :: cs =>
    .ok ((c :: cs).foldl
      (fun best v => if vs.count v > vs.count best then v else best) c)

/-- SimpleImputer.transform: replace missing cells by the fitted statistic. -/
def imputeCol (fill : Cell) (vs : List Cell) : List Cell :=
  vs.map fun v => if v.isNull then fill else v

/-- Float conversion a scaler performs on the (encoded) array cells. -/
def cellToQ (v : Cell) : Except String ℚ :=
  match v with
  | .num q => .ok q
  | .null => .error "missing value"
  | .str s => .error ("could not convert string to float: " ++ s)

/-- StandardScaler(with_mean=False) divisor: the fitted standard deviation,
or 1 when the deviation is zero. -/
def scaleOf (xs : List ℚ) : ℚ :=
  let s := ratSqrt (variance xs)
  if s = 0 then 1 else s

/-- Frozen state of the categorical sub-pipeline. -/
structure CatFitState where
  fills : List Cell
  enc : LabelEncodingTransformer
  scales : List ℚ
deriving DecidableEq, Repr

/-- Fit-and-apply of the categorical sub-pipeline over its routed columns:
most-frequent imputation, the custom label encoding (receiving the
intermediate numpy array the imputer emits), then scaling without
mean-centering. -/
def fitTransCat (cols : List (List Cell)) :
    Except String (CatFitState × List (List ℚ)) :=
  match exMap mostFrequent cols with
  | .error e => .error e
  | .ok fills =>
    let imputed := List.zipWith imputeCol fills cols
    let enc := LabelEncodingTransformer.init.fit (.arr imputed)
    match enc.transform (.arr imputed) with
    | .error e => .error e
    | .ok (.df _) => .error "unexpected frame from array transform"
    | .ok (.arr ecols) =>
      match exMap (exMap cellToQ) ecols with
      | .error e => .error e
      | .ok qcols =>
        let scales := qcols.map scaleOf
        .ok (⟨fills, enc, scales⟩,
          List.zipWith (fun c s => c.map (· / s)) qcols scales)

/-- Frozen application of the categorical sub-pipeline to test columns. -/
def applyCat (st : CatFitState) (cols : List (List Cell)) :
    Except String (List (List ℚ)) :=
  let imputed := List.zipWith imputeCol st.fills cols
  match st.enc.transform (.arr imputed) with
  | .error e => .error e
  | .ok (.df _) => .error "unexpected frame from array transform"
  | .ok (.arr ecols) =>
    match exMap (exMap cellToQ) ecols with
    | .error e => .error e
    | .ok qcols => .ok (List.zipWith (fun c s => c.map (· / s)) qcols st.scales)

/-- The five hardcoded numeric feature columns of
get_data_transformer_object. -/
def numerical_columns : List String :=
  ["Air temperature K", "Process temperature K", "Rotational speed rpm",
   "Torque Nm", "Tool wear min"]

/-- The hardcoded categorical feature columns. -/
def categorical_columns : List String := ["Type"]

/-- Frame column access by name (KeyError when absent). -/
def getCol : List (String × List Cell) → String → Except String (List Cell)
  | [], c => .error ("missing column " ++ c)
  | (c', vs) :: t, c => if c' = c then .ok vs else getCol t c

/-- Select a named list of columns, failing on the first absent one. -/
def getCols (d : List (String × List Cell)) (names : List String) :
    Except String (List (List Cell)) :=
  exMap (getCol d) names

/-- Row view of a list of columns of common length m (how the numpy output
matrix of the ColumnTransformer is laid out). -/
def mkRows (cols : List (List ℚ)) (m : ℕ) : List (List ℚ) :=
  (List.range m).map fun i => cols.map fun c => c.getD i 0

/-- Row count of the routed output: the length of the first routed column. -/
def nRowsOf (cols : List (List Cell)) : ℕ :=
  match cols with
  | [] => 0
  | c :: _ => c.length

/-- Frozen state of the whole ColumnTransformer. -/
structure PreprocessorFit where
  numStats : List NumColStats
  cat : CatFitState
deriving DecidableEq, Repr

/-- preprocessor.fit_transform on the training features: route the numeric
and categorical column subsets through their sub-pipelines and concatenate
the outputs column-wise, numeric block first. -/
def fitPreprocessor (d : List (String × List Cell)) :
    Except String (PreprocessorFit × List (List ℚ)) :=
  match getCols d numerical_columns with
  | .error e => .error e
  | .ok numCells =>
    match getCols d categorical_columns with
    | .error e => .error e
    | .ok catCells =>
      match exMap fitTransNumCol numCells with
      | .error e => .error e
      | .ok numRes =>
        match fitTransCat catCells with
        | .error e => .error e
        | .ok catRes =>
          .ok (⟨numRes.map Prod.fst, catRes.1⟩,
            mkRows (numRes.map Prod.snd ++ catRes.2) (nRowsOf numCells))

/-- preprocessor.transform on the test features with the frozen fit. -/
def applyPreprocessor (p : PreprocessorFit) (d : List (String × List Cell)) :
    Except String (List (List ℚ)) :=
  match getCols d numerical_columns with
  | .error e => .error e
  | .ok numCells =>
    match getCols d categorical_columns with
    | .error e => .error e
    | .ok catCells =>
      match exMap (fun q => applyNumCol q.1 q.2) (p.numStats.zip numCells) with
      | .error e => .error e
      | .ok numOut =>
        match applyCat p.cat catCells with
        | .error e => .error e
        | .ok catOut => .ok (mkRows (numOut ++ catOut) (nRowsOf numCells))

/-- The target column of the driver. -/
def target_column_name : String := "Failure Type"

/-- DataTransformationConfig.preprocessor_obj_file_path. -/
def preprocessor_obj_file_path : String := "artifacts/preprocessor.pkl"

/-- df.drop(columns=[c]). -/
def dropCol (d : List (String × List Cell)) (c : String) :
    List (String × List Cell) :=
  d.filter fun p => decide (p.1 ≠ c)

/-- np.c_[X, y]: horizontally append the target as last column. -/
def zipAppendTarget (X : List (List ℚ)) (y : List ℤ) : List (List ℚ) :=
  List.zipWith (fun (r : List ℚ) (t : ℤ) => r ++ [(t : ℚ)]) X y

/-- All steps of initiate_data_transformation before resampling: separate
the target, fit the router on the train features and apply it frozen to the
test features, fit the target encoder on the train target and apply it
frozen to the test target. -/
def transformStage (train_df test_df : List (String × List Cell)) :
    Except String (List (List ℚ) × List ℤ × List (List ℚ) × List ℤ) :=
  match getCol train_df target_column_name with
  | .error e => .error e
  | .ok yTrainCells =>
    match getCol test_df target_column_name with
    | .error e => .error e
    | .ok yTestCells =>
      match fitPreprocessor (dropCol train_df target_column_name) with
      | .error e => .error e
      | .ok pres =>
        match applyPreprocessor pres.1 (dropCol test_df target_column_name) with
        | .error e => .error e
        | .ok testArr =>
          match (LabelEncoder.fit yTrainCells).transformAll yTrainCells with
          | .error e => .error e
          | .ok yTrain =>
            match (LabelEncoder.fit yTrainCells).transformAll yTestCells with
            | .error e => .error e
            | .ok yTest => .ok (pres.2, yTrain, testArr, yTest)

/-- DataTransformation.initiate_data_transformation, parametrized by the
seed-indexed resampler: the source constructs SMOTETomek(random_state=42)
and calls fit_resample on the train matrix and train target only, then
appends the integer-coded target as last column of both matrices and
returns them with the artifact path. -/
def initiate_data_transformation
    (fit_resample : ℕ → List (List ℚ) → List ℤ → List (List ℚ) × List ℤ)
    (train_df test_df : List (String × List Cell)) :
    Except String (List (List ℚ) × List (List ℚ) × String) :=
  (transformStage train_df test_df).map fun r =>
    let res := fit_resample 42 r.1 r.2.1
    (zipAppendTarget res.1 res.2, zipAppendTarget r.2.2.1 r.2.2.2,
      preprocessor_obj_file_path)

theorem mkRows_length (cols : List (List ℚ)) (m : ℕ) :
    (mkRows cols m).length = m := by
  simp [mkRows]

theorem mem_mkRows_length {cols : List (List ℚ)} {m : ℕ} {r : List ℚ}
    (h : r ∈ mkRows cols m) : r.length = cols.length := by
  rcases List.mem_map.mp h with ⟨i, _, rfl⟩
  simp

theorem observedQ_ne_nil {vs : List Cell} (h : vs.any Cell.isNum = true) :
    observedQ vs ≠ [] := by
  rcases List.any_eq_true.mp h with ⟨v, hv, hnum⟩
  cases v with
  | num q =>
    intro hobs
    have : q ∈ observedQ vs := by
      simp only [observedQ, List.mem_filterMap]
      exact ⟨.num q, hv, rfl⟩
    rw [hobs] at this
    cases this
  | null => cases hnum
  | str s => cases hnum

theorem fitTransNumCol_ok {vs : List Cell} (h1 : vs.all Cell.isNumericVal)
    (h2 : vs.any Cell.isNum) :
    ∃ st out, fitTransNumCol vs = .ok (st, out) ∧ out.length = vs.length := by
  unfold fitTransNumCol
  rw [if_pos h1]
  cases hobs : observedQ vs with
  | nil => exact absurd hobs (observedQ_ne_nil h2)
  | cons q qs => exact ⟨_, _, rfl, by simp⟩

theorem applyNumCol_ok {st : NumColStats} {vs : List Cell}
    (h : vs.all Cell.isNumericVal) :
    applyNumCol st vs =
      .ok (vs.map fun v => (cellQ v st.medianFit - st.meanFit) / st.scaleFit) := by
  simp [applyNumCol, h]

theorem mostFrequent_ok {vs : List Cell} {v : Cell} (hv : v ∈ vs)
    (hnn : v.isNull = false) : ∃ c, mostFrequent vs = .ok c := by
  unfold mostFrequent
  cases hsu : sortedUnique (vs.filter fun w => !w.isNull) with
  | nil =>
    exfalso
    have : v ∈ sortedUnique (vs.filter fun w => !w.isNull) :=
      mem_sortedUnique.mpr (List.mem_filter.mpr ⟨hv, by simp [hnn]⟩)
    rw [hsu] at this
    cases this
  | cons c cs => exact ⟨_, rfl⟩

theorem imputeCol_id {f : Cell} {vs : List Cell}
    (h : ∀ v ∈ vs, v.isNull = false) : imputeCol f vs = vs := by
  unfold imputeCol
  conv_rhs => rw [← List.map_id vs]
  apply List.map_congr_left
  intro v hv
  simp [h v hv]

theorem isNull_false_of_isStr {v : Cell} (h : v.isStr = true) :
    v.isNull = false := by
  cases v <;> simp_all [Cell.isStr, Cell.isNull]

theorem isNumericVal_false_of_isStr {v : Cell} (h : v.isStr = true) :
    v.isNumericVal = false := by
  cases v <;> simp_all [Cell.isStr, Cell.isNumericVal]

theorem arrNumeric_single_false {ts : List Cell} (hne : ts ≠ [])
    (hstr : ts.all Cell.isStr) : arrNumeric [ts] = false := by
  cases ts with
  | nil => exact absurd rfl hne
  | cons v t =>
    have hv : v.isStr = true := by
      have := List.all_eq_true.mp hstr v (List.mem_cons_self _ _)
      exact this
    simp [arrNumeric, isNumericVal_false_of_isStr hv]

theorem exMap_cellToQ_intCell (codes : List ℤ) :
    exMap cellToQ (codes.map intCell) = .ok (codes.map fun z => (z : ℚ)) := by
  induction codes with
  | nil => rfl
  | cons z t ih => simp [exMap, intCell, cellToQ, ih]

theorem fitTransCat_ok_str {ts : List Cell} (hne : ts ≠ [])
    (hstr : ts.all Cell.isStr) :
    ∃ st out, fitTransCat [ts] = .ok (st, out) ∧ out.length = 1 ∧
      st.fills.length = 1 ∧ st.scales.length = 1 ∧
      lookupEnc (.idx 0) st.enc.encoders = some (LabelEncoder.fit ts) := by
  have hnn : ∀ v ∈ ts, v.isNull = false := fun v hv =>
    isNull_false_of_isStr (List.all_eq_true.mp hstr v hv)
  obtain ⟨v0, hv0⟩ : ∃ v, v ∈ ts := by
    cases ts with
    | nil => exact absurd rfl hne
    | cons a t => exact ⟨a, List.mem_cons_self _ _⟩
  rcases mostFrequent_ok hv0 (hnn v0 hv0) with ⟨f, hf⟩
  have hflist : exMap mostFrequent [ts] = .ok [f] := by simp [exMap, hf]
  have himp : List.zipWith imputeCol [f] [ts] = [ts] := by
    simp [imputeCol_id hnn]
  have hencdef : LabelEncodingTransformer.init.fit (.arr [ts]) =
      ⟨[(ColKey.idx 0, LabelEncoder.fit ts)]⟩ := by
    rw [LabelEncodingTransformer.fit,
      if_neg (by simp [arrNumeric_single_false hne hstr])]
    rfl
  have hlook : lookupEnc (.idx 0) [(ColKey.idx 0, LabelEncoder.fit ts)] =
      some (LabelEncoder.fit ts) := by
    simp [lookupEnc]
  have henum : [ts].enum = [(0, ts)] := by
    simp [List.enum]
  have htr : LabelEncodingTransformer.transform
      ⟨[(ColKey.idx 0, LabelEncoder.fit ts)]⟩ (.arr [ts]) =
      .ok (.arr [(ts.map fun v =>
        (List.indexOf v (sortedUnique ts) : ℤ)).map intCell]) := by
    simp only [LabelEncodingTransformer.transform, henum]
    simp [exMap, transformArrCol, hlook, transformAll_fit_self, Except.map]
  have hq : exMap (exMap cellToQ)
      [(ts.map fun v => (List.indexOf v (sortedUnique ts) : ℤ)).map intCell] =
      .ok [(ts.map fun v =>
        (List.indexOf v (sortedUnique ts) : ℤ)).map fun z => (z : ℚ)] := by
    have h1 := exMap_cellToQ_intCell
      (ts.map fun v => (List.indexOf v (sortedUnique ts) : ℤ))
    simp only [exMap, h1]
  simp only [fitTransCat, hflist, himp, hencdef, htr, hq]
  exact ⟨_, _, rfl, by simp, by simp, by simp, hlook⟩

theorem applyCat_ok_str {st : CatFitState} {ts es : List Cell} {f : Cell}
    (hfills : st.fills = [f])
    (henc : lookupEnc (.idx 0) st.enc.encoders = some (LabelEncoder.fit ts))
    {s : ℚ} (hscales : st.scales = [s])
    (hstr : es.all Cell.isStr) (hsub : ∀ v ∈ es, v ∈ ts) :
    applyCat st [es] =
      .ok [(es.map fun v => (List.indexOf v (sortedUnique ts) : ℤ)).map
        fun z => (z : ℚ) / s] := by
  have hnn : ∀ v ∈ es, v.isNull = false := fun v hv =>
    isNull_false_of_isStr (List.all_eq_true.mp hstr v hv)
  have himp : List.zipWith imputeCol [f] [es] = [es] := by
    simp [imputeCol_id hnn]
  have hsubc : ∀ v ∈ es, v ∈ (LabelEncoder.fit ts).classes := fun v hv =>
    mem_sortedUnique.mpr (hsub v hv)
  have henum : [es].enum = [(0, es)] := by
    simp [List.enum]
  have htr : st.enc.transform (.arr [es]) =
      .ok (.arr [(es.map fun v =>
        (List.indexOf v (sortedUnique ts) : ℤ)).map intCell]) := by
    simp only [LabelEncodingTransformer.transform, henum]
    have hta := transformAll_ok_of_sub hsubc
    simp only [LabelEncoder.fit] at hta
    simp [exMap, transformArrCol, henc, hta, Except.map, LabelEncoder.fit]
  have hq : exMap (exMap cellToQ)
      [(es.map fun v => (List.indexOf v (sortedUnique ts) : ℤ)).map intCell] =
      .ok [(es.map fun v =>
        (List.indexOf v (sortedUnique ts) : ℤ)).map fun z => (z : ℚ)] := by
    have h1 := exMap_cellToQ_intCell
      (es.map fun v => (List.indexOf v (sortedUnique ts) : ℤ))
    simp only [exMap, h1]
  simp only [applyCat, hfills, himp, htr, hq, hscales]
  rw [show ∀ c : List ℚ, List.zipWith (fun c s => c.map (· / s)) [c] [s] =
    [c.map (· / s)] from fun c => rfl]
  rw [List.map_map]
  rfl

theorem exMap_ok_mem_rev {α β : Type} {f : α → Except String β} {l : List α}
    {l' : List β} (h : exMap f l = .ok l') :
    ∀ b ∈ l', ∃ a ∈ l, f a = .ok b := by
  induction l generalizing l' with
  | nil =>
    simp only [exMap] at h
    cases h
    intro b hb
    cases hb
  | cons a t ih =>
    simp only [exMap] at h
    cases hfa : f a with
    | error e => rw [hfa] at h; cases h
    | ok b =>
      rw [hfa] at h
      cases hft : exMap f t with
      | error e => rw [hft] at h; cases h
      | ok bs =>
        rw [hft] at h
        cases h
        intro x hx
        rcases List.mem_cons.mp hx with rfl | hx
        · exact ⟨a, List.mem_cons_self _ _, hfa⟩
        · rcases ih hft x hx with ⟨y, hy, hfy⟩
          exact ⟨y, List.mem_cons_of_mem _ hy, hfy⟩

theorem mem_zipWith_inv {α β γ : Type} {f : α → β → γ} {l₁ : List α}
    {l₂ : List β} {c : γ} (h : c ∈ List.zipWith f l₁ l₂) :
    ∃ a ∈ l₁, ∃ b ∈ l₂, c = f a b := by
  induction l₁ generalizing l₂ with
  | nil => cases h
  | cons a t ih =>
    cases l₂ with
    | nil => cases h
    | cons b t₂ =>
      rcases List.mem_cons.mp h with rfl | h'
      · exact ⟨a, List.mem_cons_self _ _, b, List.mem_cons_self _ _, rfl⟩
      · rcases ih h' with ⟨x, hx, y, hy, hc⟩
        exact ⟨x, List.mem_cons_of_mem _ hx, y, List.mem_cons_of_mem _ hy, hc⟩

theorem getCol_ok_mem {d : List (String × List Cell)} {c : String}
    {vs : List Cell} (h : getCol d c = .ok vs) : (c, vs) ∈ d := by
  induction d with
  | nil => cases h
  | cons p t ih =>
    obtain ⟨c', vs'⟩ := p
    rw [getCol] at h
    by_cases hc : c' = c
    · rw [if_pos hc] at h
      injection h with h
      subst hc h
      exact List.mem_cons_self _ _
    · rw [if_neg hc] at h
      exact List.mem_cons_of_mem _ (ih h)

theorem getCols_congr {d d' : List (String × List Cell)} {names : List String}
    (h : ∀ c ∈ names, getCol d c = getCol d' c) :
    getCols d names = getCols d' names :=
  exMap_congr h

theorem not_ok_to_error {α : Type} {x : Except String α}
    (h : ∀ b, x ≠ .ok b) : ∃ msg, x = .error msg := by
  cases x with
  | error e => exact ⟨e, rfl⟩
  | ok b => exact absurd rfl (h b)

theorem fitPreprocessor_ok {d : List (String × List Cell)} {ts : List Cell}
    (hnum : ∀ c ∈ numerical_columns, ∃ vs, getCol d c = .ok vs ∧
      vs.all Cell.isNumericVal = true ∧ vs.any Cell.isNum = true)
    (hcat : getCol d "Type" = .ok ts) (hne : ts ≠ [])
    (hstr : ts.all Cell.isStr = true) :
    ∃ p rows, fitPreprocessor d = .ok (p, rows) ∧
      (∀ r ∈ rows, r.length = 6) ∧
      p.numStats.length = 5 ∧
      (∃ f, p.cat.fills = [f]) ∧ (∃ s, p.cat.scales = [s]) ∧
      lookupEnc (.idx 0) p.cat.enc.encoders = some (LabelEncoder.fit ts) := by
  have hgnum : ∃ numCells, getCols d numerical_columns = .ok numCells := by
    apply exMap_ok_of_forall
    intro c hc
    rcases hnum c hc with ⟨vs, hvs, _, _⟩
    exact ⟨vs, hvs⟩
  rcases hgnum with ⟨numCells, hnumCells⟩
  have hnumlen : numCells.length = 5 := by
    have := exMap_ok_length hnumCells
    simpa [numerical_columns] using this
  have hnumprops : ∀ x ∈ numCells,
      x.all Cell.isNumericVal = true ∧ x.any Cell.isNum = true := by
    intro x hx
    rcases exMap_ok_mem_rev hnumCells x hx with ⟨c, hc, hcx⟩
    rcases hnum c hc with ⟨vs, hvs, hv1, hv2⟩
    rw [hvs] at hcx
    injection hcx with hcx
    exact hcx ▸ ⟨hv1, hv2⟩
  have hgcat : getCols d categorical_columns = .ok [ts] := by
    simp [getCols, categorical_columns, exMap, hcat]
  have hfitnum : ∃ numRes, exMap fitTransNumCol numCells = .ok numRes := by
    apply exMap_ok_of_forall
    intro x hx
    rcases hnumprops x hx with ⟨h1, h2⟩
    rcases fitTransNumCol_ok h1 h2 with ⟨st, out, hok, _⟩
    exact ⟨(st, out), hok⟩
  rcases hfitnum with ⟨numRes, hnumRes⟩
  have hreslen : numRes.length = 5 := by
    rw [exMap_ok_length hnumRes, hnumlen]
  rcases fitTransCat_ok_str hne hstr with
    ⟨catSt, catOut, hcatok, hcatlen, hfills, hscales, hlook⟩
  refine ⟨⟨numRes.map Prod.fst, catSt⟩,
    mkRows (numRes.map Prod.snd ++ catOut) (nRowsOf numCells), ?_, ?_, ?_, ?_, ?_, ?_⟩
  · simp only [fitPreprocessor, hnumCells, hgcat, hnumRes, hcatok]
  · intro r hr
    rw [mem_mkRows_length hr]
    simp [hreslen, hcatlen]
  · simp [hreslen]
  · exact List.length_eq_one.mp hfills
  · exact List.length_eq_one.mp hscales
  · exact hlook

theorem nRowsOf_eq_get0 (cols : List (List Cell)) (h : 0 < cols.length) :
    nRowsOf cols = (cols.get ⟨0, h⟩).length := by
  cases cols with
  | nil => cases h
  | cons c rest => rfl

theorem applyPreprocessor_ok {p : PreprocessorFit}
    {d : List (String × List Cell)} {ts es : List Cell}
    (hnum : ∀ c ∈ numerical_columns, ∃ vs, getCol d c = .ok vs ∧
      vs.all Cell.isNumericVal = true)
    (hcat : getCol d "Type" = .ok es)
    (hstats : p.numStats.length = 5)
    (hfills : ∃ f, p.cat.fills = [f]) (hscales : ∃ s, p.cat.scales = [s])
    (henc : lookupEnc (.idx 0) p.cat.enc.encoders = some (LabelEncoder.fit ts))
    (hstr : es.all Cell.isStr = true) (hsub : ∀ v ∈ es, v ∈ ts) :
    ∃ rows, applyPreprocessor p d = .ok rows ∧
      (∀ r ∈ rows, r.length = 6) ∧
      (∀ vs0, getCol d "Air temperature K" = .ok vs0 →
        rows.length = vs0.length) := by
  have hgnum : ∃ numCells, getCols d numerical_columns = .ok numCells := by
    apply exMap_ok_of_forall
    intro c hc
    rcases hnum c hc with ⟨vs, hvs, _⟩
    exact ⟨vs, hvs⟩
  rcases hgnum with ⟨numCells, hnumCells⟩
  have hnumlen : numCells.length = 5 := by
    have := exMap_ok_length hnumCells
    simpa [numerical_columns] using this
  have hnumprops : ∀ x ∈ numCells, x.all Cell.isNumericVal = true := by
    intro x hx
    rcases exMap_ok_mem_rev hnumCells x hx with ⟨c, hc, hcx⟩
    rcases hnum c hc with ⟨vs, hvs, hv1⟩
    rw [hvs] at hcx
    injection hcx with hcx
    exact hcx ▸ hv1
  have hgcat : getCols d categorical_columns = .ok [es] := by
    simp [getCols, categorical_columns, exMap, hcat]
  have happly : ∃ numOut,
      exMap (fun q => applyNumCol q.1 q.2) (p.numStats.zip numCells) =
        .ok numOut := by
    apply exMap_ok_of_forall
    intro q hq
    have hmem := List.of_mem_zip hq
    exact ⟨_, applyNumCol_ok (hnumprops q.2 hmem.2)⟩
  rcases happly with ⟨numOut, hnumOut⟩
  have houtlen : numOut.length = 5 := by
    rw [exMap_ok_length hnumOut]
    simp [List.length_zip, hstats, hnumlen]
  rcases hfills with ⟨f, hf⟩
  rcases hscales with ⟨s, hs⟩
  have hcatok := applyCat_ok_str hf henc hs hstr hsub
  refine ⟨mkRows (numOut ++ [(es.map fun v =>
      (List.indexOf v (sortedUnique ts) : ℤ)).map fun z => (z : ℚ) / s])
      (nRowsOf numCells), ?_, ?_, ?_⟩
  · simp only [applyPreprocessor, hnumCells, hgcat, hnumOut, hcatok]
  · intro r hr
    rw [mem_mkRows_length hr]
    simp [houtlen]
  · intro vs0 hvs0
    rw [mkRows_length]
    have hlt : 0 < numerical_columns.length := by simp [numerical_columns]
    have hlt' : 0 < numCells.length := by rw [hnumlen]; norm_num
    have hg := exMap_ok_get hnumCells 0 hlt hlt'
    have hname : numerical_columns.get ⟨0, hlt⟩ = "Air temperature K" := rfl
    rw [hname] at hg
    have hc0 : numCells.get ⟨0, hlt'⟩ = vs0 := by
      have := hg.symm.trans hvs0
      injection this
    rw [nRowsOf_eq_get0 numCells hlt', hc0]

theorem transformStage_ok {train_df test_df : List (String × List Cell)}
    {ytr yte ts es : List Cell}
    (hytr : getCol train_df target_column_name = .ok ytr)
    (hyte : getCol test_df target_column_name = .ok yte)
    (htgt : ∀ v ∈ yte, v ∈ ytr)
    (hnumTr : ∀ c ∈ numerical_columns, ∃ vs,
      getCol (dropCol train_df target_column_name) c = .ok vs ∧
      vs.all Cell.isNumericVal = true ∧ vs.any Cell.isNum = true)
    (hcatTr : getCol (dropCol train_df target_column_name) "Type" = .ok ts)
    (htsne : ts ≠ []) (htsstr : ts.all Cell.isStr = true)
    (hnumTe : ∀ c ∈ numerical_columns, ∃ vs,
      getCol (dropCol test_df target_column_name) c = .ok vs ∧
      vs.all Cell.isNumericVal = true)
    (hcatTe : getCol (dropCol test_df target_column_name) "Type" = .ok es)
    (hesstr : es.all Cell.isStr = true) (hsub : ∀ v ∈ es, v ∈ ts) :
    ∃ trainArr yTrain testArr yTest,
      transformStage train_df test_df = .ok (trainArr, yTrain, testArr, yTest) ∧
      (∀ r ∈ trainArr, r.length = 6) ∧ (∀ r ∈ testArr, r.length = 6) ∧
      yTest.length = yte.length ∧
      (∀ vs0, getCol (dropCol test_df target_column_name) "Air temperature K" =
        .ok vs0 → testArr.length = vs0.length) := by
  rcases fitPreprocessor_ok hnumTr hcatTr htsne htsstr with
    ⟨p, trainArr, hfit, hw6, hstats, hfills, hscales, hlook⟩
  rcases applyPreprocessor_ok hnumTe hcatTe hstats hfills hscales hlook
    hesstr hsub with ⟨testArr, happ, hw6te, hlenA⟩
  have hytrall := @transformAll_fit_self ytr
  have hyteall : (LabelEncoder.fit ytr).transformAll yte =
      .ok (yte.map fun v =>
        (List.indexOf v (LabelEncoder.fit ytr).classes : ℤ)) :=
    transformAll_ok_of_sub fun v hv => mem_sortedUnique.mpr (htgt v hv)
  refine ⟨trainArr, ytr.map fun v => (List.indexOf v (sortedUnique ytr) : ℤ),
    testArr, yte.map fun v => (List.indexOf v (LabelEncoder.fit ytr).classes : ℤ),
    ?_, hw6, hw6te, by simp, hlenA⟩
  simp only [transformStage, hytr, hyte, hfit, happ, hytrall, hyteall]

/-- C1: for every pair of well-formed train/test frames — both contain the
target column and the five numeric feature columns (numeric-valued, each
train column with at least one observed value) and the Type column
(string-valued, the train column non-empty), with every test Type value and
test target value already occurring in the train split — and every
width-preserving resampler, initiate_data_transformation returns a triple
(train matrix, test matrix, artifact path) in which every row of both
matrices consists of the 6 preprocessed feature values (5 numeric + 1
encoded categorical) followed by the integer-coded target as the 7th
entry. -/
theorem initiate_returns_seven_column_matrices
    (fit_resample : ℕ → List (List ℚ) → List ℤ → List (List ℚ) × List ℤ)
    {train_df test_df : List (String × List Cell)} {ytr yte ts es : List Cell}
    (hytr : getCol train_df target_column_name = .ok ytr)
    (hyte : getCol test_df target_column_name = .ok yte)
    (htgt : ∀ v ∈ yte, v ∈ ytr)
    (hnumTr : ∀ c ∈ numerical_columns, ∃ vs,
      getCol (dropCol train_df target_column_name) c = .ok vs ∧
      vs.all Cell.isNumericVal = true ∧ vs.any Cell.isNum = true)
    (hcatTr : getCol (dropCol train_df target_column_name) "Type" = .ok ts)
    (htsne : ts ≠ []) (htsstr : ts.all Cell.isStr = true)
    (hnumTe : ∀ c ∈ numerical_columns, ∃ vs,
      getCol (dropCol test_df target_column_name) c = .ok vs ∧
      vs.all Cell.isNumericVal = true)
    (hcatTe : getCol (dropCol test_df target_column_name) "Type" = .ok es)
    (hesstr : es.all Cell.isStr = true) (hsub : ∀ v ∈ es, v ∈ ts)
    (hreb : ∀ X y r, (∀ row ∈ X, row.length = 6) →
      r ∈ (fit_resample 42 X y).1 → r.length = 6) :
    ∃ tr te, initiate_data_transformation fit_resample train_df test_df =
      .ok (tr, te, preprocessor_obj_file_path) ∧
      (∀ r ∈ tr, r.length = 7) ∧ (∀ r ∈ te, r.length = 7) := by
  rcases transformStage_ok hytr hyte htgt hnumTr hcatTr htsne htsstr hnumTe
    hcatTe hesstr hsub with
    ⟨trainArr, yTrain, testArr, yTest, hstage, hw6, hw6te, _, _⟩
  refine ⟨zipAppendTarget (fit_resample 42 trainArr yTrain).1
      (fit_resample 42 trainArr yTrain).2,
    zipAppendTarget testArr yTest, ?_, ?_, ?_⟩
  · unfold initiate_data_transformation
    rw [hstage]
    rfl
  · intro r hr
    rcases mem_zipWith_inv hr with ⟨a, ha, b, _, rfl⟩
    have h6 : a.length = 6 := hreb trainArr yTrain a hw6 ha
    simp [h6]
  · intro r hr
    rcases mem_zipWith_inv hr with ⟨a, ha, b, _, rfl⟩
    have h6 : a.length = 6 := hw6te a ha
    simp [h6]

/-- C6: the resampler is never applied to the test split: under the same
well-formedness hypotheses as C1 plus a uniform test row count, there is a
single test matrix, equal to the frozen-transform of the test rows with the
coded test target appended, that the driver returns for EVERY resampler,
and it has exactly one row per row of the test input. -/
theorem resampler_not_applied_to_test
    {train_df test_df : List (String × List Cell)} {ytr yte ts es : List Cell}
    {mE : ℕ}
    (hytr : getCol train_df target_column_name = .ok ytr)
    (hyte : getCol test_df target_column_name = .ok yte)
    (htgt : ∀ v ∈ yte, v ∈ ytr)
    (hnumTr : ∀ c ∈ numerical_columns, ∃ vs,
      getCol (dropCol train_df target_column_name) c = .ok vs ∧
      vs.all Cell.isNumericVal = true ∧ vs.any Cell.isNum = true)
    (hcatTr : getCol (dropCol train_df target_column_name) "Type" = .ok ts)
    (htsne : ts ≠ []) (htsstr : ts.all Cell.isStr = true)
    (hnumTe : ∀ c ∈ numerical_columns, ∃ vs,
      getCol (dropCol test_df target_column_name) c = .ok vs ∧
      vs.all Cell.isNumericVal = true)
    (hcatTe : getCol (dropCol test_df target_column_name) "Type" = .ok es)
    (hesstr : es.all Cell.isStr = true) (hsub : ∀ v ∈ es, v ∈ ts)
    (hrect : ∀ pcol ∈ test_df, pcol.2.length = mE) :
    ∃ testArr yTest,
      (∀ fit_resample, ∃ tr,
        initiate_data_transformation fit_resample train_df test_df =
          .ok (tr, zipAppendTarget testArr yTest, preprocessor_obj_file_path)) ∧
      (zipAppendTarget testArr yTest).length = mE := by
  rcases transformStage_ok hytr hyte htgt hnumTr hcatTr htsne htsstr hnumTe
    hcatTe hesstr hsub with
    ⟨trainArr, yTrain, testArr, yTest, hstage, _, _, hylen, hAlen⟩
  refine ⟨testArr, yTest, ?_, ?_⟩
  · intro fr
    refine ⟨zipAppendTarget (fr 42 trainArr yTrain).1 (fr 42 trainArr yTrain).2, ?_⟩
    unfold initiate_data_transformation
    rw [hstage]
    rfl
  · have hair : ∃ vs, getCol (dropCol test_df target_column_name)
        "Air temperature K" = .ok vs ∧ vs.all Cell.isNumericVal = true := by
      have : "Air temperature K" ∈ numerical_columns := by
        simp [numerical_columns]
      rcases hnumTe _ this with ⟨vs, h1, h2⟩
      exact ⟨vs, h1, h2⟩
    rcases hair with ⟨vs0, hvs0, _⟩
    have hta : testArr.length = vs0.length := hAlen vs0 hvs0
    have hv0m : vs0.length = mE := by
      have hmem := getCol_ok_mem hvs0
      have : ("Air temperature K", vs0) ∈ test_df := List.mem_of_mem_filter hmem
      exact hrect _ this
    have hyl : yte.length = mE := by
      have hmem := getCol_ok_mem hyte
      exact hrect _ hmem
    have h1 : testArr.length = mE := hta.trans hv0m
    have h2 : yTest.length = mE := hylen.trans hyl
    unfold zipAppendTarget
    rw [List.length_zipWith, h1, h2]
    exact min_self mE

/-- C7: the driver is parametrized by the seed-indexed resampler and uses it
only at the hardcoded seed 42; any two resamplers agreeing at seed 42 — in
particular, the same resampler twice — give bit-identical output on the same
pair of input frames, so the whole driver is a deterministic function of its
two inputs. -/
theorem driver_deterministic
    (r r' : ℕ → List (List ℚ) → List ℤ → List (List ℚ) × List ℤ)
    (h : r 42 = r' 42) (train_df test_df : List (String × List Cell)) :
    initiate_data_transformation r train_df test_df =
      initiate_data_transformation r' train_df test_df := by
  unfold initiate_data_transformation
  rw [h]

theorem transformAll_ok_eq {e : LabelEncoder} {xs : List Cell}
    {codes : List ℤ} (h : e.transformAll xs = .ok codes) :
    codes = xs.map fun v => (List.indexOf v e.classes : ℤ) := by
  apply List.ext_get (by simp [transformAll_ok_length h])
  intro n h1 h2
  have hlt : n < xs.length := by rw [← transformAll_ok_length h]; exact h1
  have hg := exMap_ok_get h n hlt h1
  unfold LabelEncoder.code at hg
  by_cases hm : xs.get ⟨n, hlt⟩ ∈ e.classes
  · rw [if_pos hm] at hg
    injection hg with hg
    simp only [List.get_map]
    rw [← hg]
  · rw [if_neg hm] at hg
    cases hg

theorem fitPreprocessor_ok_inv {d : List (String × List Cell)}
    {p : PreprocessorFit} {rows : List (List ℚ)}
    (h : fitPreprocessor d = .ok (p, rows)) :
    ∃ numCells catCells numRes catRes,
      getCols d numerical_columns = .ok numCells ∧
      getCols d categorical_columns = .ok catCells ∧
      exMap fitTransNumCol numCells = .ok numRes ∧
      fitTransCat catCells = .ok catRes ∧
      p = ⟨numRes.map Prod.fst, catRes.1⟩ ∧
      rows = mkRows (numRes.map Prod.snd ++ catRes.2) (nRowsOf numCells) := by
  unfold fitPreprocessor at h
  split at h
  · cases h
  · rename_i numCells h1
    split at h
    · cases h
    · rename_i catCells h2
      split at h
      · cases h
      · rename_i numRes h3
        split at h
        · cases h
        · rename_i catRes h4
          injection h with h
          injection h with hp hrows
          exact ⟨numCells, catCells, numRes, catRes, h1, h2, h3, h4,
            hp.symm, hrows.symm⟩

theorem applyPreprocessor_ok_inv {p : PreprocessorFit}
    {d : List (String × List Cell)} {rows : List (List ℚ)}
    (h : applyPreprocessor p d = .ok rows) :
    ∃ numCells catCells, getCols d numerical_columns = .ok numCells ∧
      getCols d categorical_columns = .ok catCells := by
  unfold applyPreprocessor at h
  split at h
  · cases h
  · rename_i numCells h1
    split at h
    · cases h
    · rename_i catCells h2
      exact ⟨numCells, catCells, h1, h2⟩

/-- C2: LabelEncodingTransformer.fit learns an encoder exactly for each
column that is non-numeric at fit time — for a named frame each column of
object/category dtype, for a raw array each column slice of non-numeric
dtype (every slice shares the array dtype) — and each learned mapping sends
the distinct observed values, in sorted order, bijectively to 0..k-1; no
mapping is learned for a numeric column. -/
theorem fit_learns_encoders_exactly :
    (∀ d : List (String × List Cell), (d.map Prod.fst).Nodup →
      ∀ c vs, (c, vs) ∈ d →
        (numericCol vs = false →
          lookupEnc (.name c)
            ((LabelEncodingTransformer.init.fit (.df d)).encoders) =
            some (LabelEncoder.fit vs)) ∧
        (numericCol vs = true →
          lookupEnc (.name c)
            ((LabelEncodingTransformer.init.fit (.df d)).encoders) = none)) ∧
    (∀ (d : List (String × List Cell)) k e,
      lookupEnc k ((LabelEncodingTransformer.init.fit (.df d)).encoders) =
        some e →
      ∃ p ∈ d, k = ColKey.name p.1 ∧ numericCol p.2 = false ∧
        e = LabelEncoder.fit p.2) ∧
    (∀ a : List (List Cell), arrNumeric a = true →
      (LabelEncodingTransformer.init.fit (.arr a)).encoders = []) ∧
    (∀ a : List (List Cell), arrNumeric a = false → ∀ i vs,
      a.get? i = some vs →
      lookupEnc (.idx i)
        ((LabelEncodingTransformer.init.fit (.arr a)).encoders) =
        some (LabelEncoder.fit vs)) ∧
    (∀ xs : List Cell,
      (LabelEncoder.fit xs).classes.Pairwise Cell.le ∧
      (LabelEncoder.fit xs).classes.Nodup ∧
      (∀ v, v ∈ (LabelEncoder.fit xs).classes ↔ v ∈ xs) ∧
      (∀ v ∈ xs, (LabelEncoder.fit xs).code v =
          .ok ((List.indexOf v (LabelEncoder.fit xs).classes : ℕ) : ℤ) ∧
        List.indexOf v (LabelEncoder.fit xs).classes <
          (LabelEncoder.fit xs).classes.length) ∧
      (∀ j : ℕ, j < (LabelEncoder.fit xs).classes.length →
        ∃ v ∈ xs, (LabelEncoder.fit xs).code v = .ok (j : ℤ)) ∧
      (∀ v w, v ∈ xs → w ∈ xs →
        List.indexOf v (LabelEncoder.fit xs).classes =
          List.indexOf w (LabelEncoder.fit xs).classes → v = w)) := by
  refine ⟨?_, ?_, ?_, ?_, ?_⟩
  · intro d hnd c vs hmem
    constructor
    · intro hn
      exact fitDFCols_lookup_hit hnd hmem hn
    · intro hn
      have := @fitDFCols_lookup_skip c vs [] d hnd hmem hn
      simpa [LabelEncodingTransformer.fit, LabelEncodingTransformer.init,
        lookupEnc] using this
  · intro d k e h
    have h' : lookupEnc k (fitDFCols [] d) = some e := h
    rcases fitDFCols_lookup_inv h' with h0 | hgood
    · cases h0
    · exact hgood
  · intro a ha
    simp [LabelEncodingTransformer.fit, ha, LabelEncodingTransformer.init]
  · intro a ha i vs hget
    have hmem : (i, vs) ∈ a.enum := by
      rw [List.mem_enum_iff_getElem?]
      rw [← List.get?_eq_getElem?]
      exact hget
    have hndx : (a.enum.map Prod.fst).Nodup := by
      rw [List.enum_map_fst]
      exact List.nodup_range _
    have := @fitArrCols_lookup_hit i vs [] a.enum hndx hmem
    simpa [LabelEncodingTransformer.fit, ha, LabelEncodingTransformer.init]
      using this
  · intro xs
    refine ⟨pairwise_sortedUnique xs, nodup_sortedUnique xs,
      fun v => mem_sortedUnique, ?_, ?_, ?_⟩
    · intro v hv
      have hm : v ∈ (LabelEncoder.fit xs).classes := mem_sortedUnique.mpr hv
      exact ⟨LabelEncoder.code_ok_of_mem hm, List.indexOf_lt_length.mpr hm⟩
    · intro j hj
      have hm : (LabelEncoder.fit xs).classes.get ⟨j, hj⟩ ∈
          (LabelEncoder.fit xs).classes := List.get_mem _ _ _
      refine ⟨(LabelEncoder.fit xs).classes.get ⟨j, hj⟩,
        mem_sortedUnique.mp hm, ?_⟩
      have hidx : List.indexOf ((LabelEncoder.fit xs).classes.get ⟨j, hj⟩)
          (LabelEncoder.fit xs).classes = j :=
        List.get_indexOf (nodup_sortedUnique xs) ⟨j, hj⟩
      rw [LabelEncoder.code_ok_of_mem hm, hidx]
    · intro v w hv hw heq
      exact (List.indexOf_inj (mem_sortedUnique.mpr hv)
        (mem_sortedUnique.mpr hw)).mp heq

/-- C3: for every fitted LabelEncodingTransformer, transform replaces each
value of each column with a stored encoder by its integer code, passes
columns without an encoder through unchanged, and raises when a mapped
column holds a value unseen at fit time — on named frames and raw arrays
alike. -/
theorem transform_applies_frozen_codes :
    (∀ (t : LabelEncodingTransformer) (d d' : List (String × List Cell)),
      t.transform (.df d) = .ok (.df d') →
      d'.length = d.length ∧
      ∀ n (hn : n < d.length) (hn' : n < d'.length),
        (d'.get ⟨n, hn'⟩).1 = (d.get ⟨n, hn⟩).1 ∧
        (lookupEnc (.name (d.get ⟨n, hn⟩).1) t.encoders = none →
          (d'.get ⟨n, hn'⟩).2 = (d.get ⟨n, hn⟩).2) ∧
        (∀ e, lookupEnc (.name (d.get ⟨n, hn⟩).1) t.encoders = some e →
          (d'.get ⟨n, hn'⟩).2 = ((d.get ⟨n, hn⟩).2.map fun v =>
            (List.indexOf v e.classes : ℤ)).map intCell)) ∧
    (∀ (t : LabelEncodingTransformer) (a a' : List (List Cell)),
      t.transform (.arr a) = .ok (.arr a') →
      a'.length = a.length ∧
      ∀ n (hn : n < a.length) (hn' : n < a'.length),
        (lookupEnc (.idx n) t.encoders = none →
          a'.get ⟨n, hn'⟩ = a.get ⟨n, hn⟩) ∧
        (∀ e, lookupEnc (.idx n) t.encoders = some e →
          a'.get ⟨n, hn'⟩ = ((a.get ⟨n, hn⟩).map fun v =>
            (List.indexOf v e.classes : ℤ)).map intCell)) ∧
    (∀ (t : LabelEncodingTransformer) (d : List (String × List Cell))
      (c : String) (vs : List Cell) (e : LabelEncoder) (v : Cell),
      (c, vs) ∈ d → lookupEnc (.name c) t.encoders = some e → v ∈ vs →
      v ∉ e.classes → ∃ msg, t.transform (.df d) = .error msg) ∧
    (∀ (t : LabelEncodingTransformer) (a : List (List Cell)) (i : ℕ)
      (vs : List Cell) (e : LabelEncoder) (v : Cell),
      (i, vs) ∈ a.enum → lookupEnc (.idx i) t.encoders = some e → v ∈ vs →
      v ∉ e.classes → ∃ msg, t.transform (.arr a) = .error msg) := by
  refine ⟨?_, ?_, ?_, ?_⟩
  · intro t d d' h
    rcases transform_df_ok_spec h with ⟨hlen, hpt⟩
    refine ⟨hlen, ?_⟩
    intro n hn hn'
    rcases hpt n hn hn' with ⟨hname, hnone, hsome⟩
    refine ⟨hname, hnone, ?_⟩
    intro e he
    rcases hsome e he with ⟨codes, hcodes, heq⟩
    rw [heq, transformAll_ok_eq hcodes]
  · intro t a a' h
    rcases transform_arr_ok_spec h with ⟨hlen, hpt⟩
    refine ⟨hlen, ?_⟩
    intro n hn hn'
    rcases hpt n hn hn' with ⟨hnone, hsome⟩
    refine ⟨hnone, ?_⟩
    intro e he
    rcases hsome e he with ⟨codes, hcodes, heq⟩
    rw [heq, transformAll_ok_eq hcodes]
  · intro t d c vs e v hmem hl hv hnc
    exact not_ok_to_error (transform_df_not_ok hmem hl hv hnc)
  · intro t a i vs e v hmem hl hv hnc
    exact not_ok_to_error (transform_arr_not_ok hmem hl hv hnc)

/-- C4: the target encoder fits the sorted mapping of the distinct train
target values onto 0..k-1, applies exactly that frozen mapping to the test
target, and raises exactly when the test split holds a target value that
never occurs in the train split. -/
theorem target_encoder_frozen_mapping (ytr yte : List Cell) :
    ((LabelEncoder.fit ytr).classes.Pairwise Cell.le ∧
      (LabelEncoder.fit ytr).classes.Nodup ∧
      (∀ v, v ∈ (LabelEncoder.fit ytr).classes ↔ v ∈ ytr)) ∧
    ((LabelEncoder.fit ytr).transformAll ytr =
      .ok (ytr.map fun v => (List.indexOf v (sortedUnique ytr) : ℤ))) ∧
    ((∀ v ∈ yte, v ∈ ytr) →
      (LabelEncoder.fit ytr).transformAll yte =
        .ok (yte.map fun v =>
          (List.indexOf v (LabelEncoder.fit ytr).classes : ℤ))) ∧
    ((∃ v ∈ yte, v ∉ ytr) →
      ∃ msg, (LabelEncoder.fit ytr).transformAll yte = .error msg) := by
  refine ⟨⟨pairwise_sortedUnique ytr, nodup_sortedUnique ytr,
    fun v => mem_sortedUnique⟩, transformAll_fit_self, ?_, ?_⟩
  · intro hsub
    exact transformAll_ok_of_sub fun v hv => mem_sortedUnique.mpr (hsub v hv)
  · intro ⟨v, hv, hnv⟩
    apply not_ok_to_error
    exact transformAll_not_ok_of_unseen hv
      (fun hm => hnv (mem_sortedUnique.mp hm))

/-- C5: the column router concatenates the numeric-pipeline output and the
categorical-pipeline output column-wise in that order, depends only on the
named columns (so any other input column is silently dropped), and fails
when any named column is missing — both when fitting and when applying the
frozen transform. -/
theorem router_concat_drop_fail :
    (∀ (d : List (String × List Cell)) p rows,
      fitPreprocessor d = .ok (p, rows) →
      ∃ numCells catCells numRes catRes,
        getCols d numerical_columns = .ok numCells ∧
        getCols d categorical_columns = .ok catCells ∧
        exMap fitTransNumCol numCells = .ok numRes ∧
        fitTransCat catCells = .ok catRes ∧
        p = ⟨numRes.map Prod.fst, catRes.1⟩ ∧
        rows = mkRows (numRes.map Prod.snd ++ catRes.2) (nRowsOf numCells)) ∧
    (∀ d d' : List (String × List Cell),
      (∀ c ∈ numerical_columns ++ categorical_columns,
        getCol d c = getCol d' c) →
      fitPreprocessor d = fitPreprocessor d') ∧
    (∀ (d : List (String × List Cell)) (c : String),
      c ∈ numerical_columns ++ categorical_columns →
      (∀ vs, getCol d c ≠ .ok vs) →
      ∃ msg, fitPreprocessor d = .error msg) ∧
    (∀ (p : PreprocessorFit) (d : List (String × List Cell)) (c : String),
      c ∈ numerical_columns ++ categorical_columns →
      (∀ vs, getCol d c ≠ .ok vs) →
      ∃ msg, applyPreprocessor p d = .error msg) := by
  refine ⟨fun d p rows h => fitPreprocessor_ok_inv h, ?_, ?_, ?_⟩
  · intro d d' h
    have h1 : getCols d numerical_columns = getCols d' numerical_columns :=
      getCols_congr fun c hc =>
        h c (List.mem_append.mpr (Or.inl hc))
    have h2 : getCols d categorical_columns = getCols d' categorical_columns :=
      getCols_congr fun c hc =>
        h c (List.mem_append.mpr (Or.inr hc))
    unfold fitPreprocessor
    rw [h1, h2]
  · intro d c hc hno
    apply not_ok_to_error
    intro b hok
    obtain ⟨p, rows⟩ := b
    rcases fitPreprocessor_ok_inv hok with
      ⟨numCells, catCells, _, _, hnum, hcat, _⟩
    rcases List.mem_append.mp hc with hcn | hcc
    · rcases exMap_ok_mem hnum c hcn with ⟨vs, _, hvs⟩
      exact hno vs hvs
    · rcases exMap_ok_mem hcat c hcc with ⟨vs, _, hvs⟩
      exact hno vs hvs
  · intro p d c hc hno
    apply not_ok_to_error
    intro rows hok
    rcases applyPreprocessor_ok_inv hok with ⟨numCells, catCells, hnum, hcat⟩
    rcases List.mem_append.mp hc with hcn | hcc
    · rcases exMap_ok_mem hnum c hcn with ⟨vs, _, hvs⟩
      exact hno vs hvs
    · rcases exMap_ok_mem hcat c hcc with ⟨vs, _, hvs⟩
      exact hno vs hvs

/-- C8: transform builds a fresh structure of the same shape as its input —
the returned table has the same constructor, the same column names (for
frames) and the same per-column lengths; the functional embedding touches
the input nowhere, mirroring the source, which writes only into X.copy(). -/
theorem transform_new_structure_same_shape :
    (∀ (t : LabelEncodingTransformer) (d : List (String × List Cell))
      (Y : Table), t.transform (.df d) = .ok Y →
      ∃ d', Y = .df d' ∧ dfShape d' = dfShape d) ∧
    (∀ (t : LabelEncodingTransformer) (a : List (List Cell)) (Y : Table),
      t.transform (.arr a) = .ok Y →
      ∃ a', Y = .arr a' ∧ arrShape a' = arrShape a) :=
  ⟨fun _ _ _ h => transform_df_shape h, fun _ _ _ h => transform_arr_shape h⟩

/-- C9: on a well-formed table with no missing values, fit followed by
transform succeeds, and re-applying transform to the same input yields
output identical to the first application. -/
theorem fit_transform_repeatable (X : Table) (hwf : tableWF X)
    (hnn : noNullsTable X) :
    ∃ Y, (LabelEncodingTransformer.init.fit X).transform X = .ok Y ∧
      ∀ Y', (LabelEncodingTransformer.init.fit X).transform X = .ok Y' →
        Y' = Y := by
  rcases transform_fit_self_ok hwf with ⟨Y, hY⟩
  refine ⟨Y, hY, ?_⟩
  intro Y' hY'
  rw [hY] at hY'
  injection hY' with h
  exact h.symm

/-- C10: fit never removes or resets learned state — every key present in
self.encoders stays present after any further fit; refitting on a frame in
which a previously encoded column is absent or numeric leaves the stale
mapping in place; and transform still applies a stored mapping whenever the
column has one. -/
theorem fit_state_monotone :
    (∀ (t : LabelEncodingTransformer) (X : Table) (k : ColKey),
      (lookupEnc k t.encoders).isSome →
      (lookupEnc k ((t.fit X).encoders)).isSome) ∧
    (∀ (t : LabelEncodingTransformer) (d : List (String × List Cell))
      (c : String),
      (∀ vs, (c, vs) ∈ d → numericCol vs = true) →
      lookupEnc (.name c) ((t.fit (.df d)).encoders) =
        lookupEnc (.name c) t.encoders) ∧
    (∀ (t : LabelEncodingTransformer) (c : String) (e : LabelEncoder)
      (vs : List Cell),
      lookupEnc (.name c) t.encoders = some e →
      transformDFCol t c vs =
        (e.transformAll vs).map fun codes => codes.map intCell) := by
  refine ⟨?_, ?_, ?_⟩
  · intro t X k h
    cases X with
    | df d => exact lookupEnc_isSome_fitDFCols d h
    | arr a =>
      by_cases ha : arrNumeric a
      · simpa [LabelEncodingTransformer.fit, ha] using h
      · simp only [LabelEncodingTransformer.fit, if_neg ha]
        exact lookupEnc_isSome_fitArrCols a.enum h
  · intro t d c hnum
    apply fitDFCols_lookup_of_miss
    intro p hp hnn hk
    have hpc : p.1 = c := by
      injection hk
    have := hnum p.2 (by rw [← hpc]; exact hp)
    rw [this] at hnn
    cases hnn
  · intro t c e vs h
    unfold transformDFCol
    rw [h]

/-- A two-row sample frame with the schema the driver expects, used to
instantiate the driver theorems at a concrete input. -/
def sampleTrain : List (String × List Cell) :=
  [("Air temperature K", [.num 298, .num 300]),
   ("Process temperature K", [.num 308, .num 310]),
   ("Rotational speed rpm", [.num 1500, .num 1600]),
   ("Torque Nm", [.num 40, .num 45]),
   ("Tool wear min", [.num 0, .num 100]),
   ("Type", [.str "L", .str "M"]),
   ("Failure Type", [.str "No Failure", .str "Heat Dissipation Failure"])]

/-- A two-column sample frame for the encoder theorems. -/
def sampleSmall : List (String × List Cell) :=
  [("Type", [.str "B", .str "A", .str "B"]),
   ("Torque Nm", [.num 1, .num 2, .num 3])]

/-- Witness instantiating the C1 theorem at a concrete pair of frames and a
width-preserving resampler. -/
theorem initiate_returns_seven_column_matrices_witness :
    ∃ tr te, initiate_data_transformation (fun _ X y => (X, y)) sampleTrain
        sampleTrain = .ok (tr, te, preprocessor_obj_file_path) ∧
      (∀ r ∈ tr, r.length = 7) ∧ (∀ r ∈ te, r.length = 7) :=
  initiate_returns_seven_column_matrices (fun _ X y => (X, y))
    rfl rfl (by decide)
    (by intro c hc; fin_cases hc <;> exact ⟨_, rfl, by decide, by decide⟩)
    rfl (by decide) (by decide)
    (by intro c hc; fin_cases hc <;> exact ⟨_, rfl, by decide⟩)
    rfl (by decide) (by decide)
    (fun X y r h hr => h r hr)

/-- Witness instantiating the C6 theorem at a concrete pair of frames. -/
theorem resampler_not_applied_to_test_witness :
    ∃ testArr yTest,
      (∀ fit_resample, ∃ tr,
        initiate_data_transformation fit_resample sampleTrain sampleTrain =
          .ok (tr, zipAppendTarget testArr yTest,
            preprocessor_obj_file_path)) ∧
      (zipAppendTarget testArr yTest).length = 2 :=
  resampler_not_applied_to_test
    rfl rfl (by decide)
    (by intro c hc; fin_cases hc <;> exact ⟨_, rfl, by decide, by decide⟩)
    rfl (by decide) (by decide)
    (by intro c hc; fin_cases hc <;> exact ⟨_, rfl, by decide⟩)
    rfl (by decide) (by decide)
    (by decide)

/-- Witness instantiating the C7 theorem with two syntactically different
resamplers that agree at seed 42. -/
theorem driver_deterministic_witness :
    initiate_data_transformation (fun _ X y => (X, y)) sampleTrain
        sampleTrain =
      initiate_data_transformation
        (fun s X y => if s = 0 then ([], []) else (X, y)) sampleTrain
        sampleTrain :=
  driver_deterministic (fun _ X y => (X, y))
    (fun s X y => if s = 0 then ([], []) else (X, y))
    (by funext X y; simp) sampleTrain sampleTrain

/-- Witness instantiating the C9 theorem at a concrete frame with no
missing values. -/
theorem fit_transform_repeatable_witness :
    ∃ Y, (LabelEncodingTransformer.init.fit (.df sampleSmall)).transform
        (.df sampleSmall) = .ok Y ∧
      ∀ Y', (LabelEncodingTransformer.init.fit (.df sampleSmall)).transform
        (.df sampleSmall) = .ok Y' → Y' = Y :=
  fit_transform_repeatable (.df sampleSmall) (by decide) (by decide)

end PredMaint
